import Mathlib

/-!
# Verification of the plain-factory citation and text-transformation core

A shallow embedding of the `plain_factory` repository's citation model
(`factory/_paragraph.py`), text processor (`factory/_text_processor.py`),
formatter (`factory/_formatter.py`), tab generators
(`factory/_tab_generators.py`) and license assembler (`license_factory.py`),
together with theorems settling the behavioural claims about footnote
renumbering, paragraph split/merge, annotation conversion, code-block
handling, citation scanning and ordering, and page assembly.

Text is modelled as `List Char`; regular-expression scans are modelled as
explicit fuelled scanners that follow the semantics of the concrete patterns
appearing in `factory/_constants.py`.
-/

/-- Document text, modelled as a list of characters. -/
abbrev Text : Type := List Char

/-- Conversion from Lean string literals to the `Text` model. -/
def tl (s : String) : Text := s.toList

/-- ASCII whitespace stripped by Python's `str.strip()` (`' '`, `\t`, `\n`,
`\r`, `\x0b`, `\x0c`). -/
def isPySpace (c : Char) : Bool :=
  c = ' ' || c = '\t' || c = '\n' || c = '\r' || c = '\x0b' || c = '\x0c'

/-- Python `str.strip()`: drop leading and trailing whitespace. -/
def pyStrip (t : Text) : Text :=
  ((t.dropWhile isPySpace).reverse.dropWhile isPySpace).reverse

/-- Numeric value of a run of ASCII digit characters, as read by `int()`
on a regex digit group (most significant digit first). -/
def digitsToNat (ds : Text) : Nat :=
  ds.foldl (fun a c => 10 * a + (c.toNat - 48)) 0

/-- Little-endian decimal digits of `n` rendered as characters. -/
def natDigitsRev (n : Nat) : Text :=
  (Nat.digits 10 n).map (fun d => Char.ofNat (48 + d))

/-- Fuelled little-endian digit extraction (kernel-computable). -/
def natDigitsRevGo : Nat → Nat → Text
  | 0, _ => []
  | _ + 1, 0 => []
  | fuel + 1, n + 1 => Char.ofNat (48 + (n + 1) % 10) :: natDigitsRevGo fuel ((n + 1) / 10)

theorem natDigitsRevGo_eq : ∀ fuel : Nat, ∀ n : Nat, n ≤ fuel →
    natDigitsRevGo fuel n = natDigitsRev n := by
  intro fuel
  induction fuel with
  | zero =>
    intro n hn
    have : n = 0 := Nat.le_zero.mp hn
    subst this
    simp [natDigitsRevGo, natDigitsRev]
  | succ fl ih =>
    intro n hn
    match n with
    | 0 => simp [natDigitsRevGo, natDigitsRev]
    | m + 1 =>
      have hdiv : (m + 1) / 10 ≤ fl := by
        have := Nat.div_lt_self (Nat.succ_pos m) (by norm_num : 1 < 10)
        omega
      rw [natDigitsRevGo, ih ((m + 1) / 10) hdiv]
      unfold natDigitsRev
      rw [Nat.digits_def' (by norm_num : 1 < 10) (Nat.succ_pos m)]
      simp

/-- Decimal rendering of a natural number, as Python's `str`/f-string
formatting produces it. -/
def natToChars (n : Nat) : Text :=
  if n = 0 then ['0'] else (natDigitsRevGo n n).reverse

theorem natToChars_eq_digits (n : Nat) :
    natToChars n = if n = 0 then ['0'] else (natDigitsRev n).reverse := by
  unfold natToChars
  rw [natDigitsRevGo_eq n n le_rfl]

theorem digitsToNat_append (a b : Text) :
    digitsToNat (a ++ b) =
      b.foldl (fun x c => 10 * x + (c.toNat - 48)) (digitsToNat a) := by
  simp [digitsToNat, List.foldl_append]

theorem digitsToNat_natToChars (n : Nat) : digitsToNat (natToChars n) = n := by
  rw [natToChars_eq_digits]
  by_cases h : n = 0
  · simp [h, digitsToNat]
  · simp only [h, if_false]
    have key : ∀ ds : List Nat, (∀ d ∈ ds, d < 10) → ∀ a : Nat,
        ((ds.map (fun d => Char.ofNat (48 + d))).reverse).foldl
          (fun x c => 10 * x + (c.toNat - 48)) a = Nat.ofDigits 10 ds + a * 10 ^ ds.length := by
      intro ds
      induction ds with
      | nil => intro _ a; simp [Nat.ofDigits]
      | cons d rest ih =>
        intro hlt a
        have hd : d < 10 := hlt d (List.mem_cons_self d rest)
        have hrest : ∀ x ∈ rest, x < 10 := fun x hx => hlt x (List.mem_cons_of_mem d hx)
        simp only [List.map_cons, List.reverse_cons, List.foldl_append, List.foldl_cons,
          List.foldl_nil]
        rw [ih hrest]
        have hchar : (Char.ofNat (48 + d)).toNat - 48 = d := by
          interval_cases d <;> decide
        rw [hchar]
        simp only [Nat.ofDigits_cons, List.length_cons, pow_succ]
        ring
    have hlt : ∀ d ∈ Nat.digits 10 n, d < 10 :=
      fun d hd => Nat.digits_lt_base (by norm_num) hd
    have := key (Nat.digits 10 n) hlt 0
    simpa [digitsToNat, natDigitsRev, Nat.ofDigits_digits] using this

/-- Every character of a decimal rendering is an ASCII digit. -/
theorem natToChars_isDigit (n : Nat) : ∀ c ∈ natToChars n, c.isDigit := by
  rw [natToChars_eq_digits]
  by_cases h : n = 0
  · intro c hc
    simp [h] at hc
    subst hc
    decide
  · simp only [h, if_false]
    intro c hc
    rw [List.mem_reverse] at hc
    simp only [natDigitsRev, List.mem_map] at hc
    obtain ⟨d, hd, rfl⟩ := hc
    have hlt : d < 10 := Nat.digits_lt_base (by norm_num) hd
    interval_cases d <;> decide

/-- A decimal rendering is never empty. -/
theorem natToChars_ne_nil (n : Nat) : natToChars n ≠ [] := by
  rw [natToChars_eq_digits]
  by_cases h : n = 0
  · simp [h]
  · simp only [h, if_false]
    intro hcon
    rw [List.reverse_eq_nil_iff] at hcon
    have : Nat.digits 10 n ≠ [] := Nat.digits_ne_nil_iff_ne_zero.mpr h
    simp [natDigitsRev] at hcon
    exact this hcon

/-! ## Bracket-reference scanning

The paragraph operations `with_footnotes_realigned`, `split_paragraphs` and
`merge_with` all locate in-text footnote references with the regular
expression `\[(\d+)\]` (a number in plain square brackets).  `refAt?` models
a match attempt of that pattern at the head of the text: a `[`, a non-empty
run of digits, and a `]`. -/

/-- Match attempt of `\[(\d+)\]` at the head of the text.  Returns the
reference's numeric value and the text after the closing bracket. -/
def refAt? (t : Text) : Option (Nat × Text) :=
  match t with
  | [] => none
  | c :: rest =>
    if c = '[' then
      match rest.dropWhile Char.isDigit with
      | ']' :: r2 =>
        if rest.takeWhile Char.isDigit = [] then none
        else some (digitsToNat (rest.takeWhile Char.isDigit), r2)
      | _ => none
    else none

theorem refAt?_nil : refAt? [] = none := rfl

theorem refAt?_cons_ne {c : Char} (rest : Text) (h : c ≠ '[') :
    refAt? (c :: rest) = none := by
  simp [refAt?, h]

theorem refAt?_length {t : Text} {n : Nat} {r2 : Text}
    (h : refAt? t = some (n, r2)) : r2.length < t.length := by
  match t with
  | [] => simp [refAt?] at h
  | c :: rest =>
    simp only [refAt?] at h
    by_cases hc : c = '['
    · simp only [hc, if_true] at h
      rcases hd : rest.dropWhile Char.isDigit with _ | ⟨x, r⟩
      · rw [hd] at h; simp at h
      · rw [hd] at h
        by_cases hx : x = ']'
        · subst hx
          by_cases he : rest.takeWhile Char.isDigit = []
          · simp [he] at h
          · simp only [he, if_false, Option.some.injEq, Prod.mk.injEq] at h
            obtain ⟨-, h2⟩ := h
            have hsplit := List.takeWhile_append_dropWhile Char.isDigit rest
            have hlen : rest.length = (rest.takeWhile Char.isDigit).length + (']' :: r).length := by
              conv_lhs => rw [← hsplit]
              rw [List.length_append, hd]
            rw [← h2]
            simp only [List.length_cons] at hlen ⊢
            omega
        · simp [hx] at h
    · simp [hc] at h

/-- The scan underlying `re.finditer(r"\[(\d+)\]", text)`: left-to-right,
non-overlapping, continuing after each match, advancing one character on
failure. `fuel` bounds the recursion; `scanRefs` supplies enough fuel. -/
def scanRefsGo : Nat → Text → List Nat
  | 0, _ => []
  | _ + 1, [] => []
  | fuel + 1, c :: rest =>
    match refAt? (c :: rest) with
    | some (n, r2) => n :: scanRefsGo fuel r2
    | none => scanRefsGo fuel rest

/-- All numeric values of `\[(\d+)\]` matches in the text, in text order. -/
def scanRefs (t : Text) : List Nat := scanRefsGo t.length t

theorem scanRefsGo_stable : ∀ f1 : Nat, ∀ t : Text, ∀ f2 : Nat,
    t.length ≤ f1 → t.length ≤ f2 → scanRefsGo f1 t = scanRefsGo f2 t := by
  intro f1
  induction f1 with
  | zero =>
    intro t f2 h1 _
    have : t = [] := List.eq_nil_of_length_eq_zero (Nat.le_zero.mp h1)
    subst this
    cases f2 <;> rfl
  | succ f ih =>
    intro t f2 h1 h2
    match t with
    | [] => cases f2 <;> rfl
    | c :: rest =>
      match f2 with
      | 0 => simp at h2
      | f2' + 1 =>
        rcases href : refAt? (c :: rest) with _ | ⟨n, r2⟩
        · simp only [scanRefsGo, href]
          exact ih rest f2' (by simpa using Nat.le_of_succ_le_succ h1)
            (by simpa using Nat.le_of_succ_le_succ h2)
        · have hlen := refAt?_length href
          simp only [List.length_cons] at hlen h1 h2
          simp only [scanRefsGo, href]
          rw [ih r2 f2' (by omega) (by omega)]

theorem scanRefs_nil : scanRefs [] = [] := rfl

theorem scanRefs_cons_ref {c : Char} {rest : Text} {n : Nat} {r2 : Text}
    (h : refAt? (c :: rest) = some (n, r2)) :
    scanRefs (c :: rest) = n :: scanRefs r2 := by
  have hlen := refAt?_length h
  simp only [List.length_cons] at hlen
  simp only [scanRefs, List.length_cons, scanRefsGo, h]
  rw [scanRefsGo_stable rest.length r2 r2.length (by omega) le_rfl]

theorem scanRefs_cons_none {c : Char} {rest : Text}
    (h : refAt? (c :: rest) = none) :
    scanRefs (c :: rest) = scanRefs rest := by
  simp only [scanRefs, List.length_cons, scanRefsGo, h]

theorem takeWhile_append_all {p : Char → Bool} (ds y : Text)
    (h : ∀ c ∈ ds, p c = true) : (ds ++ y).takeWhile p = ds ++ y.takeWhile p := by
  induction ds with
  | nil => simp
  | cons d rest ih =>
    have hd : p d = true := h d (List.mem_cons_self d rest)
    simp only [List.cons_append, List.takeWhile_cons, hd, if_true]
    rw [ih (fun c hc => h c (List.mem_cons_of_mem d hc))]

theorem dropWhile_append_all {p : Char → Bool} (ds y : Text)
    (h : ∀ c ∈ ds, p c = true) : (ds ++ y).dropWhile p = y.dropWhile p := by
  induction ds with
  | nil => simp
  | cons d rest ih =>
    have hd : p d = true := h d (List.mem_cons_self d rest)
    simp only [List.cons_append, List.dropWhile_cons, hd, if_true]
    exact ih (fun c hc => h c (List.mem_cons_of_mem d hc))

theorem dropWhile_head_false {p : Char → Bool} : ∀ {l : Text} {x : Char} {xs : Text},
    l.dropWhile p = x :: xs → p x = false := by
  intro l
  induction l with
  | nil => intro x xs h; simp at h
  | cons a rest ih =>
    intro x xs h
    rw [List.dropWhile_cons] at h
    by_cases ha : p a = true
    · exact ih (by simpa [ha] using h)
    · have : a = x := by
        simp only [ha, if_false] at h
        exact (List.cons.injEq _ _ _ _ ▸ h).1
      subst this
      simpa using ha

theorem refAt?_some_head {c : Char} {rest : Text} {n : Nat} {r2 : Text}
    (h : refAt? (c :: rest) = some (n, r2)) : c = '[' := by
  by_cases hc : c = '['
  · exact hc
  · rw [refAt?_cons_ne rest hc] at h
    simp at h

/-- A full bracket reference at the head of the text is matched and consumed
exactly. -/
theorem refAt?_ref_pref (m : Nat) (x : Text) :
    refAt? ('[' :: (natToChars m ++ ']' :: x)) = some (m, x) := by
  have hdig : ∀ c ∈ natToChars m, Char.isDigit c = true := natToChars_isDigit m
  have htake : (natToChars m ++ ']' :: x).takeWhile Char.isDigit = natToChars m := by
    rw [takeWhile_append_all _ _ hdig]
    simp [List.takeWhile_cons]
  have hdrop : (natToChars m ++ ']' :: x).dropWhile Char.isDigit = ']' :: x := by
    rw [dropWhile_append_all _ _ hdig]
    simp [List.dropWhile_cons]
  simp only [refAt?, if_true, htake, hdrop, natToChars_ne_nil m, if_false,
    digitsToNat_natToChars]

/-- `re.sub(r"\[(\d+)\]", repl, text)` where `repl` renders `[f(n)]` for a
reference with value `n`: same scan as `scanRefsGo`, copying unmatched
characters and rewriting each matched reference. -/
def subRefsGo (f : Nat → Nat) : Nat → Text → Text
  | 0, t => t
  | _ + 1, [] => []
  | fuel + 1, c :: rest =>
    match refAt? (c :: rest) with
    | some (n, r2) => '[' :: (natToChars (f n) ++ ']' :: subRefsGo f fuel r2)
    | none => c :: subRefsGo f fuel rest

/-- The text with every `[n]` reference rewritten to `[f n]`. -/
def subRefs (f : Nat → Nat) (t : Text) : Text := subRefsGo f t.length t

theorem subRefsGo_stable (f : Nat → Nat) : ∀ f1 : Nat, ∀ t : Text, ∀ f2 : Nat,
    t.length ≤ f1 → t.length ≤ f2 → subRefsGo f f1 t = subRefsGo f f2 t := by
  intro f1
  induction f1 with
  | zero =>
    intro t f2 h1 _
    have : t = [] := List.eq_nil_of_length_eq_zero (Nat.le_zero.mp h1)
    subst this
    cases f2 <;> rfl
  | succ fl ih =>
    intro t f2 h1 h2
    match t with
    | [] => cases f2 <;> rfl
    | c :: rest =>
      match f2 with
      | 0 => simp at h2
      | f2' + 1 =>
        rcases href : refAt? (c :: rest) with _ | ⟨n, r2⟩
        · simp only [subRefsGo, href]
          rw [ih rest f2' (by simpa using Nat.le_of_succ_le_succ h1)
            (by simpa using Nat.le_of_succ_le_succ h2)]
        · have hlen := refAt?_length href
          simp only [List.length_cons] at hlen h1 h2
          simp only [subRefsGo, href]
          rw [ih r2 f2' (by omega) (by omega)]

theorem subRefs_nil (f : Nat → Nat) : subRefs f [] = [] := rfl

theorem subRefs_cons_ref (f : Nat → Nat) {c : Char} {rest : Text} {n : Nat} {r2 : Text}
    (h : refAt? (c :: rest) = some (n, r2)) :
    subRefs f (c :: rest) = '[' :: (natToChars (f n) ++ ']' :: subRefs f r2) := by
  have hlen := refAt?_length h
  simp only [List.length_cons] at hlen
  simp only [subRefs, List.length_cons, subRefsGo, h]
  rw [subRefsGo_stable f rest.length r2 r2.length (by omega) le_rfl]

theorem subRefs_cons_none (f : Nat → Nat) {c : Char} {rest : Text}
    (h : refAt? (c :: rest) = none) :
    subRefs f (c :: rest) = c :: subRefs f rest := by
  simp only [subRefs, List.length_cons, subRefsGo, h]

/-- Substitution preserves the head character. -/
theorem subRefs_head? (f : Nat → Nat) (t : Text) : (subRefs f t).head? = t.head? := by
  match t with
  | [] => rfl
  | c :: rest =>
    rcases href : refAt? (c :: rest) with _ | ⟨n, r2⟩
    · rw [subRefs_cons_none f href]; rfl
    · rw [subRefs_cons_ref f href, refAt?_some_head href]
      rfl

theorem subRefs_append_nobracket (f : Nat → Nat) : ∀ ds y : Text,
    (∀ c ∈ ds, c ≠ '[') → subRefs f (ds ++ y) = ds ++ subRefs f y := by
  intro ds
  induction ds with
  | nil => intro y _; simp
  | cons d rest ih =>
    intro y h
    have hd : d ≠ '[' := h d (List.mem_cons_self d rest)
    rw [List.cons_append, subRefs_cons_none f (refAt?_cons_ne _ hd), List.cons_append,
      ih y (fun c hc => h c (List.mem_cons_of_mem d hc))]

/-- If no reference matches at this position in the original text, none
matches there in the substituted text either. -/
theorem refAt?_none_sub (f : Nat → Nat) {c : Char} {rest : Text}
    (h : refAt? (c :: rest) = none) : refAt? (c :: subRefs f rest) = none := by
  by_cases hc : c = '['
  · subst hc
    have hsplit : rest.takeWhile Char.isDigit ++ rest.dropWhile Char.isDigit = rest :=
      List.takeWhile_append_dropWhile Char.isDigit rest
    have hdig : ∀ x ∈ rest.takeWhile Char.isDigit, Char.isDigit x = true :=
      fun x hx => List.mem_takeWhile_imp hx
    have hnb : ∀ x ∈ rest.takeWhile Char.isDigit, x ≠ '[' := by
      intro x hx hcon
      have hd := hdig x hx
      rw [hcon] at hd
      exact absurd hd (by decide)
    have hsub : subRefs f rest
        = rest.takeWhile Char.isDigit ++ subRefs f (rest.dropWhile Char.isDigit) := by
      conv_lhs => rw [← hsplit]
      exact subRefs_append_nobracket f _ _ hnb
    rw [hsub]
    rcases hcase : rest.dropWhile Char.isDigit with _ | ⟨x, r'⟩
    · rw [subRefs_nil]
      have hdropT : (rest.takeWhile Char.isDigit ++ ([] : Text)).dropWhile Char.isDigit = [] :=
        dropWhile_append_all _ _ hdig
      simp only [refAt?, if_true, hdropT]
    · have hx : Char.isDigit x = false := dropWhile_head_false hcase
      have hhead : (subRefs f (x :: r')).head? = some x := by
        rw [subRefs_head?]; rfl
      rcases hsub2 : subRefs f (x :: r') with _ | ⟨y, z⟩
      · rw [hsub2] at hhead; simp at hhead
      · have hy : y = x := by
          rw [hsub2] at hhead
          simpa using hhead
        subst hy
        have hdrop2 : (y :: z).dropWhile Char.isDigit = y :: z := by
          simp [List.dropWhile_cons, hx]
        have hdropT : (rest.takeWhile Char.isDigit ++ y :: z).dropWhile Char.isDigit = y :: z := by
          rw [dropWhile_append_all _ _ hdig, hdrop2]
        by_cases hxr : y = ']'
        · subst hxr
          -- the original failure forces the digit run to be empty
          have hdse : rest.takeWhile Char.isDigit = [] := by
            by_contra hne
            simp only [refAt?, if_true, hcase] at h
            simp [hne] at h
          simp only [refAt?, if_true, hdropT, hdse]
          simp
        · simp only [refAt?, if_true, hdropT]
          split
          · rename_i r2 heq
            exact absurd (List.head_eq_of_cons_eq heq) hxr
          · rfl
  · exact refAt?_cons_ne _ hc

/-- Rewriting references then re-scanning yields the mapped reference
values: the substitution rewrites exactly the scanned references. -/
theorem scanRefs_subRefs (f : Nat → Nat) : ∀ fuel : Nat, ∀ t : Text, t.length ≤ fuel →
    scanRefs (subRefs f t) = (scanRefs t).map f := by
  intro fuel
  induction fuel with
  | zero =>
    intro t h
    have : t = [] := List.eq_nil_of_length_eq_zero (Nat.le_zero.mp h)
    subst this
    rfl
  | succ fl ih =>
    intro t h
    match t with
    | [] => rfl
    | c :: rest =>
      simp only [List.length_cons] at h
      rcases href : refAt? (c :: rest) with _ | ⟨n, r2⟩
      · rw [subRefs_cons_none f href, scanRefs_cons_none (refAt?_none_sub f href),
          scanRefs_cons_none href, ih rest (by omega)]
      · have hlen := refAt?_length href
        simp only [List.length_cons] at hlen
        rw [subRefs_cons_ref f href, scanRefs_cons_ref (refAt?_ref_pref (f n) (subRefs f r2)),
          scanRefs_cons_ref href, ih r2 (by omega)]
        rfl

/-! ## Literal replacement of a single reference token

`merge_with` rewrites colliding references with
`re.sub(rf"\[{old}\]", f"[{new}]", text)` — a literal substring replacement,
since the interpolated pattern contains only digits and escaped brackets. -/

/-- The literal text of the reference `[n]`. -/
def refTok (n : Nat) : Text := '[' :: (natToChars n ++ [']'])

/-- Literal replacement of every non-overlapping occurrence of `pat` by
`rep`, scanning left to right (the semantics of `re.sub` on a pattern with
no metacharacters). -/
def replaceSubGo (pat rep : Text) : Nat → Text → Text
  | 0, t => t
  | _ + 1, [] => []
  | fuel + 1, c :: rest =>
    if pat.isPrefixOf (c :: rest) then
      rep ++ replaceSubGo pat rep fuel ((c :: rest).drop pat.length)
    else c :: replaceSubGo pat rep fuel rest

/-- `re.sub` with a literal pattern, with enough fuel supplied. -/
def replaceSub (pat rep t : Text) : Text := replaceSubGo pat rep t.length t

theorem replaceSubGo_stable (pat rep : Text) (hp : pat ≠ []) :
    ∀ f1 : Nat, ∀ t : Text, ∀ f2 : Nat,
    t.length ≤ f1 → t.length ≤ f2 → replaceSubGo pat rep f1 t = replaceSubGo pat rep f2 t := by
  intro f1
  induction f1 with
  | zero =>
    intro t f2 h1 _
    have : t = [] := List.eq_nil_of_length_eq_zero (Nat.le_zero.mp h1)
    subst this
    cases f2 <;> rfl
  | succ fl ih =>
    intro t f2 h1 h2
    match t with
    | [] => cases f2 <;> rfl
    | c :: rest =>
      match f2 with
      | 0 => simp at h2
      | f2' + 1 =>
        simp only [List.length_cons] at h1 h2
        by_cases hpre : pat.isPrefixOf (c :: rest)
        · simp only [replaceSubGo, hpre, if_true]
          have hlen : ((c :: rest).drop pat.length).length ≤ rest.length := by
            rw [List.length_drop]
            have : 1 ≤ pat.length := by
              cases pat with
              | nil => exact absurd rfl hp
              | cons a l => simp
            simp only [List.length_cons]
            omega
          rw [ih ((c :: rest).drop pat.length) f2' (by omega) (by omega)]
        · have hpre' : pat.isPrefixOf (c :: rest) = false := Bool.eq_false_iff.mpr hpre
          simp only [replaceSubGo, hpre', Bool.false_eq_true, if_false]
          rw [ih rest f2' (by omega) (by omega)]

theorem replaceSub_nil (pat rep : Text) : replaceSub pat rep [] = [] := rfl

theorem replaceSub_cons_pref (pat rep : Text) {c : Char} {rest : Text}
    (hp : pat ≠ []) (h : pat.isPrefixOf (c :: rest) = true) :
    replaceSub pat rep (c :: rest) = rep ++ replaceSub pat rep ((c :: rest).drop pat.length) := by
  have hlen : ((c :: rest).drop pat.length).length ≤ rest.length := by
    rw [List.length_drop]
    have : 1 ≤ pat.length := by
      cases pat with
      | nil => exact absurd rfl hp
      | cons a l => simp
    simp only [List.length_cons]
    omega
  simp only [replaceSub, List.length_cons, replaceSubGo, h, if_true]
  rw [replaceSubGo_stable pat rep hp rest.length _ ((c :: rest).drop pat.length).length
    (by omega) le_rfl]

theorem replaceSub_cons_nonpref (pat rep : Text) {c : Char} {rest : Text}
    (h : pat.isPrefixOf (c :: rest) = false) :
    replaceSub pat rep (c :: rest) = c :: replaceSub pat rep rest := by
  simp only [replaceSub, List.length_cons, replaceSubGo, h, if_false]
  rfl

theorem not_prefixOf_head_ne {pat : Text} {a x : Char} {l : Text}
    (hh : pat.head? = some a) (hx : x ≠ a) : pat.isPrefixOf (x :: l) = false := by
  cases pat with
  | nil => simp at hh
  | cons p ps =>
    have : p = a := by simpa using hh
    subst this
    simp [List.isPrefixOf]
    intro h
    exact absurd h.symm hx

theorem refAt?_decomp {c : Char} {rest : Text} {n : Nat} {r2 : Text}
    (h : refAt? (c :: rest) = some (n, r2)) :
    c = '[' ∧ rest = rest.takeWhile Char.isDigit ++ ']' :: r2 ∧
      n = digitsToNat (rest.takeWhile Char.isDigit) ∧ rest.takeWhile Char.isDigit ≠ [] := by
  have hc : c = '[' := refAt?_some_head h
  subst hc
  refine ⟨rfl, ?_⟩
  simp only [refAt?, if_true] at h
  rcases hd : rest.dropWhile Char.isDigit with _ | ⟨x, r⟩
  · rw [hd] at h; simp at h
  · rw [hd] at h
    by_cases hx : x = ']'
    · subst hx
      by_cases he : rest.takeWhile Char.isDigit = []
      · simp [he] at h
      · simp only [he, if_false, Option.some.injEq, Prod.mk.injEq] at h
        obtain ⟨h1, h2⟩ := h
        refine ⟨?_, h1.symm, he⟩
        conv_lhs => rw [← List.takeWhile_append_dropWhile Char.isDigit rest]
        rw [hd, h2]
    · simp [hx] at h

theorem refAt?_of_refTok_prefix {n : Nat} {t : Text}
    (h : (refTok n).isPrefixOf t = true) :
    refAt? t = some (n, t.drop (refTok n).length) := by
  obtain ⟨w, hw⟩ := List.isPrefixOf_iff_prefix.mp h
  subst hw
  have heq : refTok n ++ w = '[' :: (natToChars n ++ ']' :: w) := by
    simp [refTok]
  rw [heq, refAt?_ref_pref, ← heq, List.drop_left]

/-- Canonicality of references: every scanned `[ds]` has digits written
without leading zeros, i.e. exactly as Python formats the value back. -/
def canonRefsGo : Nat → Text → Bool
  | 0, _ => true
  | _ + 1, [] => true
  | fuel + 1, c :: rest =>
    match refAt? (c :: rest) with
    | some (n, r2) => (rest.takeWhile Char.isDigit == natToChars n) && canonRefsGo fuel r2
    | none => canonRefsGo fuel rest

/-- All scanned references of the text are canonically written. -/
def canonRefs (t : Text) : Bool := canonRefsGo t.length t

theorem canonRefsGo_stable : ∀ f1 : Nat, ∀ t : Text, ∀ f2 : Nat,
    t.length ≤ f1 → t.length ≤ f2 → canonRefsGo f1 t = canonRefsGo f2 t := by
  intro f1
  induction f1 with
  | zero =>
    intro t f2 h1 _
    have : t = [] := List.eq_nil_of_length_eq_zero (Nat.le_zero.mp h1)
    subst this
    cases f2 <;> rfl
  | succ fl ih =>
    intro t f2 h1 h2
    match t with
    | [] => cases f2 <;> rfl
    | c :: rest =>
      match f2 with
      | 0 => simp at h2
      | f2' + 1 =>
        rcases href : refAt? (c :: rest) with _ | ⟨n, r2⟩
        · simp only [canonRefsGo, href]
          exact ih rest f2' (by simpa using Nat.le_of_succ_le_succ h1)
            (by simpa using Nat.le_of_succ_le_succ h2)
        · have hlen := refAt?_length href
          simp only [List.length_cons] at hlen h1 h2
          simp only [canonRefsGo, href]
          rw [ih r2 f2' (by omega) (by omega)]

theorem canonRefs_cons_ref {c : Char} {rest : Text} {n : Nat} {r2 : Text}
    (h : refAt? (c :: rest) = some (n, r2)) :
    canonRefs (c :: rest)
      = ((rest.takeWhile Char.isDigit == natToChars n) && canonRefs r2) := by
  have hlen := refAt?_length h
  simp only [List.length_cons] at hlen
  simp only [canonRefs, List.length_cons, canonRefsGo, h]
  rw [canonRefsGo_stable rest.length r2 r2.length (by omega) le_rfl]

theorem canonRefs_cons_none {c : Char} {rest : Text}
    (h : refAt? (c :: rest) = none) : canonRefs (c :: rest) = canonRefs rest := by
  simp only [canonRefs, List.length_cons, canonRefsGo, h]

theorem replaceSub_append_pass {pat rep : Text} (hh : pat.head? = some '[') :
    ∀ xs y : Text, (∀ c ∈ xs, c ≠ '[') →
    replaceSub pat rep (xs ++ y) = xs ++ replaceSub pat rep y := by
  intro xs
  induction xs with
  | nil => intro y _; simp
  | cons d rest ih =>
    intro y h
    have hd : d ≠ '[' := h d (List.mem_cons_self d rest)
    rw [List.cons_append, replaceSub_cons_nonpref pat rep (not_prefixOf_head_ne hh hd),
      List.cons_append, ih y (fun c hc => h c (List.mem_cons_of_mem d hc))]

/-- On canonically written texts, the literal replacement of `[n]` by `[m]`
agrees with the pointwise reference substitution. -/
theorem replaceSub_eq_subRefs (n m : Nat) : ∀ fuel : Nat, ∀ t : Text, t.length ≤ fuel →
    canonRefs t = true →
    replaceSub (refTok n) (refTok m) t = subRefs (fun k => if k = n then m else k) t := by
  intro fuel
  induction fuel with
  | zero =>
    intro t h _
    have : t = [] := List.eq_nil_of_length_eq_zero (Nat.le_zero.mp h)
    subst this
    rfl
  | succ fl ih =>
    intro t h hcanon
    match t with
    | [] => rfl
    | c :: rest =>
      simp only [List.length_cons] at h
      have hpat : refTok n ≠ [] := by simp [refTok]
      rcases href : refAt? (c :: rest) with _ | ⟨k, r2⟩
      · have hnp : (refTok n).isPrefixOf (c :: rest) = false := by
          by_contra hcon
          have := refAt?_of_refTok_prefix (Bool.not_eq_false _ ▸ hcon)
          rw [href] at this
          simp at this
        rw [replaceSub_cons_nonpref _ _ hnp, subRefs_cons_none _ href,
          ih rest (by omega) (canonRefs_cons_none href ▸ hcanon)]
      · obtain ⟨hc, hrest, hk, hne⟩ := refAt?_decomp href
        subst hc
        have hcan := (canonRefs_cons_ref href) ▸ hcanon
        rw [Bool.and_eq_true, beq_iff_eq] at hcan
        obtain ⟨hds, hc2⟩ := hcan
        have hlen := refAt?_length href
        simp only [List.length_cons] at hlen
        have hrest2 : rest = natToChars k ++ ']' :: r2 := by
          rw [hrest, hds]
        by_cases hkn : k = n
        · subst hkn
          have hteq : ('[' :: rest) = refTok k ++ r2 := by
            rw [hrest2]; simp [refTok]
          have hpre : (refTok k).isPrefixOf ('[' :: rest) = true := by
            rw [List.isPrefixOf_iff_prefix, hteq]
            exact ⟨r2, rfl⟩
          rw [replaceSub_cons_pref _ _ hpat hpre, subRefs_cons_ref _ href]
          have hdrop : ('[' :: rest).drop (refTok k).length = r2 := by
            rw [hteq, List.drop_left]
          rw [hdrop, ih r2 (by omega) hc2]
          simp [refTok]
        · have hnp : (refTok n).isPrefixOf ('[' :: rest) = false := by
            by_contra hcon
            have := refAt?_of_refTok_prefix (Bool.not_eq_false _ ▸ hcon)
            rw [href] at this
            simp at this
            exact hkn this.1
          rw [replaceSub_cons_nonpref _ _ hnp, subRefs_cons_ref _ href]
          conv_lhs => rw [hrest2]
          have hpass : replaceSub (refTok n) (refTok m) ((natToChars k ++ [']']) ++ r2)
              = (natToChars k ++ [']']) ++ replaceSub (refTok n) (refTok m) r2 := by
            refine replaceSub_append_pass (by simp [refTok]) _ _ ?_
            intro x hx
            rcases List.mem_append.mp hx with hx1 | hx2
            · intro hcon
              have := natToChars_isDigit k x hx1
              rw [hcon] at this
              exact absurd this (by decide)
            · intro hcon
              simp at hx2
              rw [hx2] at hcon
              exact absurd hcon (by decide)
          have hassoc : natToChars k ++ ']' :: r2 = (natToChars k ++ [']']) ++ r2 := by simp
          rw [hassoc, hpass, ih r2 (by omega) hc2]
          simp [hkn]

/-- Characters of the substituted text come from the original text or are
reference-token characters (brackets and digits). -/
theorem mem_subRefs (f : Nat → Nat) : ∀ fuel : Nat, ∀ t : Text, t.length ≤ fuel →
    ∀ c ∈ subRefs f t, c ∈ t ∨ c = '[' ∨ c = ']' ∨ c.isDigit = true := by
  intro fuel
  induction fuel with
  | zero =>
    intro t h c hc
    have : t = [] := List.eq_nil_of_length_eq_zero (Nat.le_zero.mp h)
    subst this
    simp [subRefs_nil] at hc
  | succ fl ih =>
    intro t h c hc
    match t with
    | [] => simp [subRefs_nil] at hc
    | a :: rest =>
      simp only [List.length_cons] at h
      rcases href : refAt? (a :: rest) with _ | ⟨n, r2⟩
      · rw [subRefs_cons_none f href] at hc
        rcases List.mem_cons.mp hc with hc1 | hc2
        · exact Or.inl (hc1 ▸ List.mem_cons_self a rest)
        · rcases ih rest (by omega) c hc2 with h1 | h2
          · exact Or.inl (List.mem_cons_of_mem a h1)
          · exact Or.inr h2
      · obtain ⟨ha, hrest, -, -⟩ := refAt?_decomp href
        have hlen := refAt?_length href
        simp only [List.length_cons] at hlen
        rw [subRefs_cons_ref f href] at hc
        rcases List.mem_cons.mp hc with hc1 | hc2
        · exact Or.inr (Or.inl hc1)
        · rcases List.mem_append.mp hc2 with hc3 | hc4
          · exact Or.inr (Or.inr (Or.inr (natToChars_isDigit (f n) c hc3)))
          · rcases List.mem_cons.mp hc4 with hc5 | hc6
            · exact Or.inr (Or.inr (Or.inl hc5))
            · rcases ih r2 (by omega) c hc6 with h1 | h2
              · refine Or.inl (List.mem_cons_of_mem a ?_)
                rw [hrest]
                exact List.mem_append.mpr (Or.inr (List.mem_cons_of_mem _ h1))
              · exact Or.inr h2

/-! ## Splitting on a separator and joining back

`str.split(sep)` for a non-empty separator string, and the join that
reconstructs the original. -/

/-- `str.split(sep)`: split on non-overlapping occurrences of `sep`,
scanning left to right. -/
def splitSepGo (sep : Text) : Nat → Text → List Text
  | 0, t => [t]
  | fuel + 1, t =>
    match t with
    | [] => [[]]
    | c :: rest =>
      if sep.isPrefixOf (c :: rest) then
        [] :: splitSepGo sep fuel ((c :: rest).drop sep.length)
      else
        match splitSepGo sep fuel rest with
        | [] => [[c]]
        | h :: tl => (c :: h) :: tl

/-- `text.split(sep)` with enough fuel supplied. -/
def splitSep (sep t : Text) : List Text := splitSepGo sep t.length t

/-- Joining a list of parts with a separator (`sep.join(parts)`). -/
def joinSep (sep : Text) : List Text → Text
  | [] => []
  | [x] => x
  | x :: y :: rest => x ++ sep ++ joinSep sep (y :: rest)

theorem splitSepGo_ne_nil (sep : Text) : ∀ fuel : Nat, ∀ t : Text,
    splitSepGo sep fuel t ≠ [] := by
  intro fuel
  induction fuel with
  | zero => intro t; simp [splitSepGo]
  | succ fl ih =>
    intro t
    match t with
    | [] => simp [splitSepGo]
    | c :: rest =>
      simp only [splitSepGo]
      by_cases hpre : sep.isPrefixOf (c :: rest)
      · simp [hpre]
      · simp only [hpre, if_false]
        rcases hs : splitSepGo sep fl rest with _ | ⟨h, tl⟩
        · simp
        · simp

theorem joinSep_cons (sep : Text) (x : Text) {l : List Text} (hl : l ≠ []) :
    joinSep sep (x :: l) = x ++ sep ++ joinSep sep l := by
  match l with
  | [] => exact absurd rfl hl
  | y :: rest => rfl

/-- Splitting and rejoining with the separator reconstructs the text. -/
theorem joinSep_splitSepGo (sep : Text) (hsep : sep ≠ []) : ∀ fuel : Nat, ∀ t : Text,
    t.length ≤ fuel → joinSep sep (splitSepGo sep fuel t) = t := by
  intro fuel
  induction fuel with
  | zero =>
    intro t h
    have : t = [] := List.eq_nil_of_length_eq_zero (Nat.le_zero.mp h)
    subst this
    rfl
  | succ fl ih =>
    intro t h
    match t with
    | [] => rfl
    | c :: rest =>
      simp only [List.length_cons] at h
      simp only [splitSepGo]
      by_cases hpre : sep.isPrefixOf (c :: rest)
      · simp only [hpre, if_true]
        obtain ⟨w, hw⟩ := List.isPrefixOf_iff_prefix.mp hpre
        have hdrop : (c :: rest).drop sep.length = w := by
          rw [← hw, List.drop_left]
        have hslen : 1 ≤ sep.length := by
          cases sep with
          | nil => exact absurd rfl hsep
          | cons a l => simp
        have hwlen : w.length ≤ fl := by
          have : sep.length + w.length = rest.length + 1 := by
            have := congrArg List.length hw
            simpa using this
          omega
        rw [hdrop, joinSep_cons sep [] (splitSepGo_ne_nil sep fl w), ih w hwlen]
        simpa using hw
      · have hpre' : sep.isPrefixOf (c :: rest) = false := Bool.eq_false_iff.mpr hpre
        simp only [hpre', Bool.false_eq_true, if_false]
        rcases hs : splitSepGo sep fl rest with _ | ⟨hd, tl⟩
        · exact absurd hs (splitSepGo_ne_nil sep fl rest)
        · have hjoin := ih rest (by omega)
          rw [hs] at hjoin
          match tl with
          | [] =>
            simp only [joinSep] at hjoin ⊢
            rw [hjoin]
          | z :: tl' =>
            rw [joinSep_cons sep (c :: hd) (by simp)]
            rw [joinSep_cons sep hd (by simp)] at hjoin
            simp only [List.cons_append, List.append_assoc] at hjoin ⊢
            rw [hjoin]

theorem joinSep_splitSep (sep : Text) (hsep : sep ≠ []) (t : Text) :
    joinSep sep (splitSep sep t) = t :=
  joinSep_splitSepGo sep hsep t.length t le_rfl

/-- Every character of a split part occurs in the original text. -/
theorem mem_of_mem_splitSep (sep : Text) : ∀ fuel : Nat, ∀ t : Text,
    ∀ part ∈ splitSepGo sep fuel t, ∀ c ∈ part, c ∈ t := by
  intro fuel
  induction fuel with
  | zero =>
    intro t part hpart c hc
    simp only [splitSepGo, List.mem_singleton] at hpart
    exact hpart ▸ hc
  | succ fl ih =>
    intro t part hpart c hc
    match t with
    | [] =>
      simp only [splitSepGo, List.mem_singleton] at hpart
      subst hpart
      simp at hc
    | a :: rest =>
      simp only [splitSepGo] at hpart
      by_cases hpre : sep.isPrefixOf (a :: rest)
      · simp only [hpre, if_true, List.mem_cons] at hpart
        rcases hpart with h1 | h2
        · subst h1; simp at hc
        · have := ih ((a :: rest).drop sep.length) part h2 c hc
          exact List.mem_of_mem_drop this
      · simp only [hpre, if_false] at hpart
        rcases hs : splitSepGo sep fl rest with _ | ⟨hd, tl⟩
        · exact absurd hs (splitSepGo_ne_nil sep fl rest)
        · rw [hs] at hpart
          rcases List.mem_cons.mp hpart with h1 | h2
          · subst h1
            rcases List.mem_cons.mp hc with h3 | h4
            · exact h3 ▸ List.mem_cons_self a rest
            · exact List.mem_cons_of_mem a
                (ih rest hd (hs ▸ List.mem_cons_self hd tl) c h4)
          · exact List.mem_cons_of_mem a
              (ih rest part (hs ▸ List.mem_cons_of_mem hd h2) c hc)

/-! ## Python text normalization

`Paragraph.__new__` stores `dedent(text).strip()`.  `textwrap.dedent` blanks
whitespace-only lines, computes the common leading `[ \t]` margin of the
remaining lines, and removes it from each line start. -/

/-- Characters counting towards a dedent margin (`[ \t]`). -/
def isIndentChar (c : Char) : Bool := c = ' ' || c = '\t'

/-- A line matched by `textwrap`'s `^[ \t]+$`: non-empty and all indent
characters. -/
def wsOnlyLine (l : Text) : Bool := !l.isEmpty && l.all isIndentChar

/-- Longest common prefix of two lists (the margin-merging step of
`textwrap.dedent`). -/
def commonPrefix2 : Text → Text → Text
  | a :: as1, b :: bs => if a = b then a :: commonPrefix2 as1 bs else []
  | _, _ => []

/-- `textwrap.dedent`. -/
def pyDedent (t : Text) : Text :=
  let lines1 := (splitSep ['\n'] t).map (fun l => if wsOnlyLine l then [] else l)
  let indents := (lines1.filter (fun l => !l.isEmpty)).map (fun l => l.takeWhile isIndentChar)
  let margin := match indents with
    | [] => ([] : Text)
    | i :: rest => rest.foldl commonPrefix2 i
  if margin.isEmpty then joinSep ['\n'] lines1
  else joinSep ['\n']
    (lines1.map (fun l => if margin.isPrefixOf l then l.drop margin.length else l))

/-- The normalization `dedent(text).strip()` applied by `Paragraph.__new__`. -/
def pyNormalize (t : Text) : Text := pyStrip (pyDedent t)

/-! ## The regex match model and citation scans

`factory/_constants.py` never instantiates its `Patterns` catalog as the
`PATTERNS` object the rest of the package imports, but `Paragraph.__new__`
scans with `PATTERNS.footnote["initial"]`, the compiled pattern
`.*\[\^(?P<citation>\d+)\](?!:)`, and with `PATTERNS.annotation["inline"]`,
the compiled pattern `(?P<citation>\((?P<num>[1-9])\))` — both present in
the catalog class.  A match is modelled as its list of named captured
groups plus span. -/

/-- A Python `re.Match`: named groups in pattern order, and the span. -/
structure RegexMatch where
  groups : List (String × Text)
  mstart : Nat
  mstop : Nat
deriving DecidableEq

/-- `match.group(name)` for an optional group: `none` when the pattern has
no group of that name. -/
def RegexMatch.group? (m : RegexMatch) (name : String) : Option Text :=
  (m.groups.find? (fun p => p.1 == name)).map (fun p => p.2)

/-- `match.group(name)`: raises `IndexError: no such group` when the
pattern defines no group with that name. -/
def RegexMatch.group (m : RegexMatch) (name : String) : Except String Text :=
  match m.group? name with
  | some v => Except.ok v
  | none => Except.error "no such group"

/-- A `[^ds]` marker at the head of the text, eligible when the digit run is
non-empty and the character after `]` is not `:` (the `(?!:)` lookahead).
Returns the length of the marker and its digits. -/
def caretMarkerAt? : Text → Option (Nat × Text)
  | '[' :: '^' :: rs =>
    match rs.dropWhile Char.isDigit with
    | ']' :: r2 =>
      if rs.takeWhile Char.isDigit = [] then none
      else if r2.head? = some ':' then none
      else some (2 + (rs.takeWhile Char.isDigit).length + 1, rs.takeWhile Char.isDigit)
    | _ => none
  | _ => none

/-- All eligible `[^n]` markers within the current line (`.` does not cross
newlines), paired with the offset just past their closing bracket. -/
def markersInLine : Text → Nat → List (Nat × Text)
  | [], _ => []
  | c :: rest, i =>
    if c = '\n' then []
    else
      match caretMarkerAt? (c :: rest) with
      | some (len, ds) => (i + len, ds) :: markersInLine rest (i + 1)
      | none => markersInLine rest (i + 1)

/-- `re.finditer` for `.*\[\^(?P<citation>\d+)\](?!:)`: at each attempt
position the greedy `.*` reaches the rightmost eligible marker of the
current line, so each match extends from the attempt position to that
marker's end; scanning resumes there, otherwise at the next line. -/
def caretMatchesGo : Nat → Nat → Text → List RegexMatch
  | 0, _, _ => []
  | fuel + 1, pos, t =>
    if t.isEmpty then []
    else
      match (markersInLine t 0).getLast? with
      | some (endOff, ds) =>
        ⟨[("citation", ds)], pos, pos + endOff⟩ ::
          caretMatchesGo fuel (pos + endOff) (t.drop endOff)
      | none =>
        let lineLen := (t.takeWhile (fun c => c ≠ '\n')).length
        if lineLen = t.length then []
        else caretMatchesGo fuel (pos + lineLen + 1) (t.drop (lineLen + 1))

/-- The matches of the footnote `initial` pattern over the whole text. -/
def caretMatches (t : Text) : List RegexMatch := caretMatchesGo t.length 0 t

/-- A `(d)` marker (`d` a single digit 1–9) at the head of the text. -/
def inlineAnnAt? : Text → Option Char
  | '(' :: d :: ')' :: _ => if '1' ≤ d && d ≤ '9' then some d else none
  | _ => none

/-- `re.finditer` for the inline annotation pattern
`(?P<citation>\((?P<num>[1-9])\))`. -/
def inlineAnnGo : Nat → Nat → Text → List RegexMatch
  | 0, _, _ => []
  | _ + 1, _, [] => []
  | fuel + 1, pos, c :: rest =>
    match inlineAnnAt? (c :: rest) with
    | some d =>
      ⟨[("citation", ['(', d, ')']), ("num", [d])], pos, pos + 3⟩ ::
        inlineAnnGo fuel (pos + 3) ((c :: rest).drop 3)
    | none => inlineAnnGo fuel (pos + 1) rest

/-- The matches of the annotation `inline` pattern over the whole text. -/
def inlineAnnMatches (t : Text) : List RegexMatch := inlineAnnGo t.length 0 t

theorem caretMarkerAt?_mem {t : Text} {p : Nat × Text}
    (h : caretMarkerAt? t = some p) : '^' ∈ t := by
  unfold caretMarkerAt? at h
  split at h
  · rename_i rs
    exact List.mem_cons_of_mem _ (List.mem_cons_self _ _)
  · simp at h

theorem markersInLine_empty : ∀ t : Text, ∀ i : Nat,
    '^' ∉ t → markersInLine t i = [] := by
  intro t
  induction t with
  | nil => intro i _; rfl
  | cons c rest ih =>
    intro i h
    have hrest : '^' ∉ rest := fun hcon => h (List.mem_cons_of_mem c hcon)
    by_cases hc : c = '\n'
    · simp [markersInLine, hc]
    · rcases hm : caretMarkerAt? (c :: rest) with _ | p
      · simp [markersInLine, hc, hm, ih (i + 1) hrest]
      · exact absurd (caretMarkerAt?_mem hm) h

theorem caretMatchesGo_empty : ∀ fuel : Nat, ∀ pos : Nat, ∀ t : Text,
    '^' ∉ t → caretMatchesGo fuel pos t = [] := by
  intro fuel
  induction fuel with
  | zero => intro pos t _; rfl
  | succ fl ih =>
    intro pos t h
    by_cases he : t.isEmpty
    · simp [caretMatchesGo, he]
    · have hml : markersInLine t 0 = [] := markersInLine_empty t 0 h
      simp only [caretMatchesGo, he, Bool.false_eq_true, if_false, hml, List.getLast?_nil]
      split
      · rfl
      · exact ih _ _ (fun hcon => h (List.mem_of_mem_drop hcon))

/-- Texts without a caret character yield no footnote-initial matches. -/
theorem caretMatches_empty {t : Text} (h : '^' ∉ t) : caretMatches t = [] :=
  caretMatchesGo_empty t.length 0 t h

theorem inlineAnnAt?_mem {t : Text} {d : Char}
    (h : inlineAnnAt? t = some d) : '(' ∈ t := by
  unfold inlineAnnAt? at h
  split at h
  · exact List.mem_cons_self _ _
  · simp at h

theorem inlineAnnGo_empty : ∀ fuel : Nat, ∀ pos : Nat, ∀ t : Text,
    '(' ∉ t → inlineAnnGo fuel pos t = [] := by
  intro fuel
  induction fuel with
  | zero => intro pos t _; rfl
  | succ fl ih =>
    intro pos t h
    match t with
    | [] => rfl
    | c :: rest =>
      have hrest : '(' ∉ rest := fun hcon => h (List.mem_cons_of_mem c hcon)
      rcases hm : inlineAnnAt? (c :: rest) with _ | d
      · simp only [inlineAnnGo, hm]
        exact ih _ rest hrest
      · exact absurd (inlineAnnAt?_mem hm) h

/-- Texts without an opening parenthesis yield no inline annotation
matches. -/
theorem inlineAnnMatches_empty {t : Text} (h : '(' ∉ t) : inlineAnnMatches t = [] :=
  inlineAnnGo_empty t.length 0 t h

/-! ## Citation, Footnote and Paragraph -/

/-- The `kind` literal of a `Citation` (`"footnote"` or `"annotation"`). -/
inductive CitKind : Type
  | footnote
  | annot
deriving DecidableEq

/-- `Citation` from `factory/_paragraph.py`: an inline footnote or
annotation citation.  The source's `end` field is named `stop` here
(`end` is reserved); `match` is named `mtch`. -/
structure Citation where
  number : Nat
  kind : CitKind
  start : Nat
  stop : Nat
  mtch : Option RegexMatch
deriving DecidableEq

/-- `Citation.__eq__`: identical span, ordinal and kind (the backing match
is not compared). -/
def Citation.eqb (a b : Citation) : Bool :=
  decide (a.start = b.start) && decide (a.stop = b.stop)
    && decide (a.number = b.number) && decide (a.kind = b.kind)

/-- `Citation.__lt__`: compares the `start` positions. -/
def Citation.ltb (a b : Citation) : Bool := decide (a.start < b.start)

/-- `Citation.__gt__`: compares the `end` positions. -/
def Citation.gtb (a b : Citation) : Bool := decide (a.stop > b.stop)

/-- `Citation.from_match`: reads group `"citation"` to decide the kind,
then group `"number"` for the ordinal — a group neither the footnote
`initial` pattern (group `citation`) nor the annotation `inline` pattern
(groups `citation`, `num`) defines, so the lookup raises. -/
def Citation.from_match (m : RegexMatch) : Except String Citation := do
  let cit ← m.group "citation"
  let kind := if '(' ∈ cit then CitKind.annot else CitKind.footnote
  let nums ← m.group "number"
  Except.ok ⟨digitsToNat nums, kind, m.mstart, m.mstop, some m⟩

/-- `Footnote` from `factory/_paragraph.py`: ordinal plus body. -/
structure Footnote where
  citation : Nat
  content : Text
deriving DecidableEq

/-- `Citation.to_footnote(new_number=None)`: only annotation-kind citations
holding a backing match convert; the body is the match's `annotation`
group, stripped; `new_number or self.number` falls back to the citation's
own ordinal when the override is `None` — or `0`, which is falsy. -/
def Citation.to_footnote (c : Citation) (new_number : Option Nat) : Except String Footnote :=
  match c.mtch with
  | some m =>
    if c.kind = CitKind.annot then
      match m.group "annotation" with
      | Except.error e => Except.error e
      | Except.ok body =>
        Except.ok ⟨(match new_number with
                    | some n => if n = 0 then c.number else n
                    | none => c.number), pyStrip body⟩
    else Except.error "We can only convert annotations with a Match object to footnotes."
  | none => Except.error "We can only convert annotations with a Match object to footnotes."

/-- `Paragraph` from `factory/_paragraph.py`: normalized text plus parsed
citations and attached footnotes.  The source's `annotations` field is
named `annots` here. -/
structure Paragraph where
  text : Text
  footnote_citations : List Citation
  annots : List Citation
  footnotes : List Footnote
deriving DecidableEq

/-- `Paragraph.__new__`: when no footnote citations are supplied, scan the
text with the footnote `initial` pattern and build citations via
`Citation.from_match` (which faults on any match — see `Citation.from_match`);
likewise for annotations with the `inline` pattern; the stored text is
`dedent(text).strip()`. -/
def Paragraph.new (text : Text) (footnote_citations : List Citation)
    (annots : List Citation) (footnotes : List Footnote) : Except String Paragraph :=
  match (if footnote_citations.isEmpty
         then (caretMatches text).mapM Citation.from_match
         else Except.ok footnote_citations) with
  | Except.error e => Except.error e
  | Except.ok fcs =>
    match (if annots.isEmpty
           then (inlineAnnMatches text).mapM Citation.from_match
           else Except.ok annots) with
    | Except.error e => Except.error e
    | Except.ok ans => Except.ok ⟨pyNormalize text, fcs, ans, footnotes⟩

/-- `Paragraph.__eq__` is inherited from `str`: only the normalized text is
compared; footnotes and citation sets play no part. -/
def Paragraph.beq (p q : Paragraph) : Bool := p.text == q.text

/-- The old-ordinal-to-new-ordinal map of `with_footnotes_realigned`:
`{old: i for i, old in enumerate(sorted(ordinals), 1)}.get(n, n)` — the
dictionary keeps the last binding for duplicate keys. -/
def realignMapping (fns : List Footnote) (n : Nat) : Nat :=
  let olds := List.insertionSort (· ≤ ·) (fns.map Footnote.citation)
  let dict := olds.enum.map (fun p => (p.2, p.1 + 1))
  match ((dict.filter (fun p => p.1 == n)).getLast?).map (fun p => p.2) with
  | some v => v
  | none => n

/-- The rewritten text of `with_footnotes_realigned`:
`re.sub(r"\[(\d+)\]", lambda m: f"[{mapping.get(int(m.group(1)), ...)}]", text)`. -/
def realignNewText (p : Paragraph) : Text := subRefs (realignMapping p.footnotes) p.text

/-- The renumbered footnotes of `with_footnotes_realigned`
(`footnote_mapping[f.citation]` always finds a binding since the ordinal
is in the sorted key list). -/
def realignNewFootnotes (p : Paragraph) : List Footnote :=
  p.footnotes.map (fun f => ⟨realignMapping p.footnotes f.citation, f.content⟩)

/-- `Paragraph.with_footnotes_realigned`. -/
def with_footnotes_realigned (p : Paragraph) : Except String Paragraph :=
  if p.footnotes.isEmpty then Paragraph.new p.text [] [] p.footnotes
  else Paragraph.new (realignNewText p) [] [] (realignNewFootnotes p)

/-- `Paragraph.split_paragraphs(delimiter)`: split the text, drop
whitespace-only parts, attach to each part exactly the footnotes whose
ordinal is bracket-referenced in that (unstripped) part, and rebuild a
Paragraph from the stripped part. -/
def split_paragraphs (p : Paragraph) (delim : Text) : Except String (List Paragraph) :=
  ((splitSep delim p.text).filter (fun part => !(pyStrip part).isEmpty)).mapM
    (fun part => Paragraph.new (pyStrip part) [] []
      (p.footnotes.filter (fun f => (scanRefs part).contains f.citation)))

/-- The footnote loop of `merge_with`: walk the incoming footnotes; on an
ordinal collision with the receiver's footnotes, renumber to the running
maximum plus one and rewrite `[old]` to `[new]` in the incoming text;
otherwise pass the footnote through.  Returns the rewritten incoming text
and the processed incoming footnotes. -/
def mergeLoop (selfFns : List Footnote) :
    List Footnote → Text → Nat → Text × List Footnote
  | [], otherText, _ => (otherText, [])
  | f :: rest, otherText, maxF =>
    if selfFns.any (fun g => g.citation == f.citation) then
      let newNum := maxF + 1
      let newText := replaceSub (refTok f.citation) (refTok newNum) otherText
      let (t, fs) := mergeLoop selfFns rest newText newNum
      (t, ⟨newNum, f.content⟩ :: fs)
    else
      let (t, fs) := mergeLoop selfFns rest otherText maxF
      (t, f :: fs)

/-- `Paragraph.merge_with(other, separator)`.  (The source's intermediate
`new_text = self.text + separator + other.text` is dead and recomputed as
`final_text`.) -/
def merge_with (self other : Paragraph) (sep : Text) : Except String Paragraph :=
  match mergeLoop self.footnotes other.footnotes other.text
      ((self.footnotes.map Footnote.citation).foldl max 0) with
  | (otherText, processed) =>
    Paragraph.new (self.text ++ sep ++ otherText) [] [] (self.footnotes ++ processed)

/-- `reduce(Paragraph.merge_with)` over split parts, with a fixed
separator: the left fold of the claim's round trip. -/
def foldMerge (sep : Text) : List Paragraph → Except String Paragraph
  | [] => Except.error "reduce() of empty sequence with no initial value"
  | h :: t => t.foldlM (fun acc q => merge_with acc q sep) h

/-! ## The annotation-to-footnote transform (`transform_text_to_footnotes`)

`_text_processor.py` looks up `PATTERNS["annotation"]` in the pattern
registry, but `_constants.py` never builds the `PATTERNS` object (the
`Patterns` class is never instantiated and supports no item access).
Modelled from the spec: the annotation pattern is the catalog's
`_annotation["full"]` entry — the only one capturing an `annotation` body —
`(?P<citation>\([1-4]\)).*?(?P<class>\{\s\.annotate\s\})[\s]{1,4}[1-4]\.\s{1,2}(?P<annotation>.+?)\n`
with DOTALL, matching a `(d)` marker, the nearest following
`{ .annotate }` class, and the numbered list item carrying the body. -/

/-- The `\{\s\.annotate\s\}` class marker at the head of the text; returns
the text after the closing brace. -/
def annotClassAt? : Text → Option Text
  | '\x7b' :: w1 :: rest =>
    if isPySpace w1 && (tl ".annotate").isPrefixOf rest then
      match rest.drop 9 with
      | w2 :: '\x7d' :: r2 => if isPySpace w2 then some r2 else none
      | _ => none
    else none
  | _ => none

/-- `(?P<annotation>.+?)\n` under DOTALL: the shortest non-empty body
followed by a newline — everything up to the first newline after at least
one character. -/
def annotBodyAt? : Text → Option (Text × Text)
  | [] => none
  | c :: rest =>
    match rest.dropWhile (fun x => x ≠ '\n') with
    | '\n' :: r2 => some (c :: rest.takeWhile (fun x => x ≠ '\n'), r2)
    | _ => none

/-- `[\s]{1,4}[1-4]\.\s{1,2}` followed by the body: one to four whitespace
characters, a digit 1–4 with a dot, one or two whitespace characters, then
the body line. -/
def annotTailAt? (t : Text) : Option (Text × Text) :=
  if (t.takeWhile isPySpace).length < 1 || 4 < (t.takeWhile isPySpace).length then none
  else
    match t.drop (t.takeWhile isPySpace).length with
    | d :: '.' :: rest2 =>
      if '1' ≤ d && d ≤ '4' then
        if (rest2.takeWhile isPySpace).isEmpty then none
        else annotBodyAt? (rest2.drop (min (rest2.takeWhile isPySpace).length 2))
      else none
    | _ => none

/-- The non-greedy `.*?` search for the nearest class marker whose
following list item matches; on a failing tail the search resumes past the
candidate. -/
def searchClassGo : Nat → Text → Option (Text × Text)
  | 0, _ => none
  | fuel + 1, t =>
    match annotClassAt? t with
    | some afterClass =>
      (match annotTailAt? afterClass with
       | some (body, r2) => some (body, r2)
       | none =>
         match t with
         | [] => none
         | _ :: rest => searchClassGo fuel rest)
    | none =>
      match t with
      | [] => none
      | _ :: rest => searchClassGo fuel rest

/-- A full annotation match attempt at the head of the text: the `(d)`
citation, then the class marker and list item.  Returns the captured body
and the text after the whole match. -/
def annotAt? : Text → Option (Text × Text)
  | '(' :: d :: ')' :: rest =>
    if '1' ≤ d && d ≤ '4' then searchClassGo rest.length rest else none
  | _ => none

theorem annotClassAt?_length : ∀ {t r : Text}, annotClassAt? t = some r →
    r.length < t.length := by
  intro t r h
  unfold annotClassAt? at h
  split at h
  · rename_i w1 rest
    split at h
    · split at h
      · rename_i w2 r2 heq
        split at h
        · simp only [Option.some.injEq] at h
          subst h
          have h9 := congrArg List.length heq
          rw [List.length_drop] at h9
          simp only [List.length_cons] at h9 ⊢
          omega
        · simp at h
      · simp at h
    · simp at h
  · simp at h

theorem annotBodyAt?_length : ∀ {t body r2 : Text}, annotBodyAt? t = some (body, r2) →
    r2.length < t.length := by
  intro t body r2 h
  unfold annotBodyAt? at h
  split at h
  · simp at h
  · rename_i c rest
    split at h
    · rename_i r heq
      simp only [Option.some.injEq, Prod.mk.injEq] at h
      obtain ⟨-, h2⟩ := h
      have h1 := congrArg List.length heq
      have hle : (rest.dropWhile (fun x => x ≠ '\n')).length ≤ rest.length := by
        conv_rhs => rw [← List.takeWhile_append_dropWhile (fun x => x ≠ '\n') rest]
        rw [List.length_append]
        omega
      simp only [List.length_cons] at h1 ⊢
      rw [← h2]
      omega
    · simp at h

theorem annotTailAt?_length : ∀ {t body r2 : Text}, annotTailAt? t = some (body, r2) →
    r2.length < t.length := by
  intro t body r2 h
  unfold annotTailAt? at h
  split at h
  · simp at h
  · rename_i hws
    split at h
    · rename_i d rest2 heq
      split at h
      · split at h
        · simp at h
        · have hb := annotBodyAt?_length h
          have h1 := congrArg List.length heq
          rw [List.length_drop] at h1
          have h2 : (rest2.drop (min (rest2.takeWhile isPySpace).length 2)).length
              ≤ rest2.length := by
            rw [List.length_drop]
            omega
          simp only [List.length_cons] at h1
          have hwsle : (t.takeWhile isPySpace).length ≤ t.length :=
            (List.takeWhile_prefix _).length_le
          push_neg at hws
          omega
      · simp at h
    · simp at h

theorem searchClassGo_length : ∀ fuel : Nat, ∀ t body r2 : Text,
    searchClassGo fuel t = some (body, r2) → r2.length < t.length := by
  intro fuel
  induction fuel with
  | zero => intro t body r2 h; simp [searchClassGo] at h
  | succ fl ih =>
    intro t body r2 h
    rcases hc : annotClassAt? t with _ | afterClass
    · simp only [searchClassGo, hc] at h
      match t with
      | [] => simp at h
      | c :: rest =>
        have := ih rest body r2 h
        simp only [List.length_cons]
        omega
    · have hclen := annotClassAt?_length hc
      simp only [searchClassGo, hc] at h
      rcases ht : annotTailAt? afterClass with _ | ⟨b2, rr2⟩
      · rw [ht] at h
        match t with
        | [] => simp at h
        | c :: rest =>
          have := ih rest body r2 h
          simp only [List.length_cons]
          omega
      · rw [ht] at h
        simp only [Option.some.injEq, Prod.mk.injEq] at h
        obtain ⟨-, h2⟩ := h
        have := annotTailAt?_length ht
        rw [← h2]
        omega

theorem annotAt?_length : ∀ {t body r2 : Text}, annotAt? t = some (body, r2) →
    r2.length < t.length := by
  intro t body r2 h
  unfold annotAt? at h
  split at h
  · rename_i d rest
    split at h
    · have := searchClassGo_length rest.length rest body r2 h
      simp only [List.length_cons]
      omega
    · simp at h
  · simp at h

/-- The substitution pass of `transform_text_to_footnotes`: the replacement
closure numbers each match `len(footnotes) + 1`, appends the stripped body
to the accumulator, and emits `[^num]`; unmatched characters are copied. -/
def annotSubGo : Nat → List Text → Text → Text × List Text
  | 0, acc, t => (t, acc)
  | _ + 1, acc, [] => ([], acc)
  | fuel + 1, acc, c :: rest =>
    match annotAt? (c :: rest) with
    | some (body, r2) =>
      let num := acc.length + 1
      let (t2, acc2) := annotSubGo fuel (acc ++ [pyStrip body]) r2
      (tl "[^" ++ natToChars num ++ [']'] ++ t2, acc2)
    | none =>
      let (t2, acc2) := annotSubGo fuel acc rest
      (c :: t2, acc2)

/-- The appended `[^i]: body` definitions, numbered from `i` (the loop
`for i, footnote in enumerate(footnotes, 1)` concatenates them without
separators). -/
def footnoteDefsFrom (i : Nat) : List Text → Text
  | [] => []
  | b :: rest => tl "[^" ++ natToChars i ++ tl "]: " ++ b ++ footnoteDefsFrom (i + 1) rest

/-- `transform_text_to_footnotes` from `_text_processor.py`. -/
def transform_text_to_footnotes (text : Text) : Text :=
  let (transformed, bodies) := annotSubGo text.length [] text
  (if bodies.isEmpty then transformed
   else transformed ++ tl "\n\n" ++ footnoteDefsFrom 1 bodies) ++ tl "\n\n"

/-- Specification-side enumerator: the stripped bodies of all annotation
matches, in first-occurrence (scan) order. -/
def annotBodies : Nat → Text → List Text
  | 0, _ => []
  | _ + 1, [] => []
  | fuel + 1, c :: rest =>
    match annotAt? (c :: rest) with
    | some (body, r2) => pyStrip body :: annotBodies fuel r2
    | none => annotBodies fuel rest

/-- Specification-side rewriter: the `i`-th annotation match (0-based, in
scan order) is replaced by the footnote reference `[^(n+i)]`. -/
def annotRewriteFrom : Nat → Nat → Text → Text
  | 0, _, t => t
  | _ + 1, _, [] => []
  | fuel + 1, n, c :: rest =>
    match annotAt? (c :: rest) with
    | some (_, r2) => tl "[^" ++ natToChars n ++ [']'] ++ annotRewriteFrom fuel (n + 1) r2
    | none => c :: annotRewriteFrom fuel n rest

/-- The substitution pass numbers matches by the running accumulator
length: starting from accumulator `acc`, the matches are replaced by the
sequential references `[^(|acc|+1)]`, `[^(|acc|+2)]`, … in scan order, and
the collected bodies extend `acc` in scan order. -/
theorem annotSubGo_spec : ∀ fuel : Nat, ∀ acc : List Text, ∀ t : Text,
    annotSubGo fuel acc t = (annotRewriteFrom fuel (acc.length + 1) t, acc ++ annotBodies fuel t) := by
  intro fuel
  induction fuel with
  | zero => intro acc t; simp [annotSubGo, annotRewriteFrom, annotBodies]
  | succ fl ih =>
    intro acc t
    match t with
    | [] => simp [annotSubGo, annotRewriteFrom, annotBodies]
    | c :: rest =>
      rcases ha : annotAt? (c :: rest) with _ | ⟨body, r2⟩
      · simp only [annotSubGo, ha, annotRewriteFrom, annotBodies, ih acc rest]
      · simp only [annotSubGo, ha, annotRewriteFrom, annotBodies, ih (acc ++ [pyStrip body]) r2]
        simp [List.length_append]

/-! ## The markdown-to-plaintext pipeline (`process_markdown_to_plaintext`)

The passes resolve their patterns through the missing `PATTERNS` registry;
each lookup is identified with the obvious catalog entry (`_markdown`,
`_links`, `_codeblock`), and the two definition-related lookups are
modelled from the spec (no catalog pattern carries the `term`/`def` groups
the code reads). -/

/-- `\w` word characters. -/
def isWordChar (c : Char) : Bool := c.isAlphanum || c = '_'

/-- Modelled from the spec: the `"definition"` pattern of the missing
registry.  A definition construct is a non-blank term line followed by a
line `[ ]{0,3}:[ ]{1,4}definition` (markdown definition-list syntax); the
groups `term` and `def` carry the two parts. -/
def defLineAt? (l : Text) : Option Text :=
  if (l.takeWhile (fun c => c = ' ')).length ≤ 3 then
    match l.drop (l.takeWhile (fun c => c = ' ')).length with
    | ':' :: r => if r.head? = some ' ' then some (pyStrip r) else none
    | _ => none
  else none

/-- The definition-reformatting pass over the lines of the text.  In
plaintext mode a matched pair becomes `term - def` with backticks stripped
from the term; otherwise `term:` followed by the definition.  The
replacement is wrapped in blank lines, mirroring the `"\n" + ... + "\n"`
replacement strings of `process_definitions`. -/
def defPassLines (plaintext : Bool) : List Text → List Text
  | [] => []
  | [x] => [x]
  | term :: d :: rest =>
    match defLineAt? d with
    | some defText =>
      if !(pyStrip term).isEmpty && (defLineAt? term).isNone then
        if plaintext then
          ([] : Text) :: (pyStrip (term.filter (fun c => c ≠ '`')) ++ tl " - " ++ defText)
            :: ([] : Text) :: defPassLines plaintext rest
        else
          ([] : Text) :: (pyStrip term ++ [':']) :: defText
            :: ([] : Text) :: defPassLines plaintext rest
      else term :: defPassLines plaintext (d :: rest)
    | none => term :: defPassLines plaintext (d :: rest)

/-- A `\{\s?\.\w+\s?\}` format-class marker at the head of the text;
returns the text after the closing brace. -/
def formatClassAt? (t : Text) : Option Text :=
  match t with
  | '\x7b' :: rest =>
    match (if rest.head?.any isPySpace then rest.drop 1 else rest) with
    | '.' :: r2 =>
      if (r2.takeWhile isWordChar).isEmpty then none
      else
        match r2.drop (r2.takeWhile isWordChar).length with
        | '\x7d' :: r3 => some r3
        | w :: '\x7d' :: r3 => if isPySpace w then some r3 else none
        | _ => none
    | _ => none
  | _ => none

/-- Removal of all format-class markers (the source's
`text.replace(match, "")` is read as removing the matched text — the
`Match` object itself is not a string). -/
def formatClassStripGo : Nat → Text → Text
  | 0, t => t
  | _ + 1, [] => []
  | fuel + 1, c :: rest =>
    match formatClassAt? (c :: rest) with
    | some r2 => formatClassStripGo fuel r2
    | none => c :: formatClassStripGo fuel rest

/-- `process_definitions(text, plaintext=...)`. -/
def process_definitions (t : Text) (plaintext : Bool) : Text :=
  formatClassStripGo t.length
    (joinSep ['\n'] (defPassLines plaintext (splitSep ['\n'] t)))

/-- A `#+ (\w+?)\n` header match at the head of the text: a run of hashes,
a space, a single word, and the newline.  Returns the matched string and
the word. -/
def headerMatchAt? (t : Text) : Option (Text × Text) :=
  if (t.takeWhile (fun c => c = '#')).isEmpty then none
  else
    match t.drop (t.takeWhile (fun c => c = '#')).length with
    | ' ' :: rest =>
      if (rest.takeWhile isWordChar).isEmpty then none
      else if (rest.drop (rest.takeWhile isWordChar).length).head? = some '\n' then
        some ((t.takeWhile (fun c => c = '#')) ++ ' ' :: (rest.takeWhile isWordChar ++ ['\n']),
          rest.takeWhile isWordChar)
      else none
    | _ => none

/-- `finditer` for the header pattern. -/
def headerMatchesGo : Nat → Text → List (Text × Text)
  | 0, _ => []
  | _ + 1, [] => []
  | fuel + 1, c :: rest =>
    match headerMatchAt? (c :: rest) with
    | some (m, w) => (m, w) :: headerMatchesGo fuel ((c :: rest).drop m.length)
    | none => headerMatchesGo fuel rest

/-- The header pass of `process_markdown_to_plaintext`: for each match of
the header pattern (computed on the incoming text), replace every
occurrence of the matched string by the upper-cased word and a newline. -/
def headerPass (t : Text) : Text :=
  (headerMatchesGo t.length t).foldl
    (fun txt p => replaceSub p.1 (p.2.map Char.toUpper ++ ['\n']) txt) t

/-- Non-greedy search for a closing marker on the same line (`.` does not
match newlines): returns the shortest inner text and the remainder after
the marker. -/
def findCloseGo : Nat → Text → Text → Option (Text × Text)
  | 0, _, _ => none
  | fuel + 1, marker, t =>
    if marker.isPrefixOf t then some ([], t.drop marker.length)
    else
      match t with
      | [] => none
      | '\n' :: _ => none
      | c :: rest => (findCloseGo fuel marker rest).map (fun p => (c :: p.1, p.2))

/-- A match of `#+ |(\*\*|\*|`)(.*?)\1` at the head of the text, returning
the `\2` replacement (empty for the bare `#+ ` alternative) and the
remainder.  The emphasis alternatives are tried in pattern order with
backtracking from `**` to `*`. -/
def mdSubAt? (t : Text) : Option (Text × Text) :=
  if !(t.takeWhile (fun c => c = '#')).isEmpty
      && (t.drop (t.takeWhile (fun c => c = '#')).length).head? = some ' ' then
    some ([], t.drop ((t.takeWhile (fun c => c = '#')).length + 1))
  else
    match (if (tl "**").isPrefixOf t then findCloseGo t.length (tl "**") (t.drop 2) else none) with
    | some p => some p
    | none =>
      match (if (tl "*").isPrefixOf t then findCloseGo t.length (tl "*") (t.drop 1) else none) with
      | some p => some p
      | none =>
        if (tl "`").isPrefixOf t then findCloseGo t.length (tl "`") (t.drop 1)
        else none

/-- `re.sub` for the markdown strip pattern, keeping `\2` (the inner text)
and discarding the markup. -/
def mdSubGo : Nat → Text → Text
  | 0, t => t
  | _ + 1, [] => []
  | fuel + 1, c :: rest =>
    match mdSubAt? (c :: rest) with
    | some (content, r2) => content ++ mdSubGo fuel r2
    | none => c :: mdSubGo fuel rest

/-- The bold/italic/inline-code/header-marker strip pass. -/
def markdownSub (t : Text) : Text := mdSubGo t.length t

/-- A match of the inline link pattern
`(?P<text_tag>\[(?P<text>.*?)\]\((?P<url>.*?)\s?(?P<title>.*?)?\))`:
returns the whole tag, the link text, and the remainder. -/
def linkAt? (t : Text) : Option (Text × Text × Text) :=
  match t with
  | '[' :: rest =>
    match findCloseGo rest.length (tl "]") rest with
    | some (inner, r2) =>
      match r2 with
      | '(' :: r3 =>
        match findCloseGo r3.length (tl ")") r3 with
        | some (urlish, r4) =>
          some ('[' :: (inner ++ tl "](" ++ urlish ++ tl ")"), inner, r4)
        | none => none
      | _ => none
    | none => none
  | _ => none

/-- `re.sub(PATTERNS["link"], r"\1 (\2)", text)`: group 1 is the whole
`text_tag` group, group 2 the link text. -/
def linkSubGo : Nat → Text → Text
  | 0, t => t
  | _ + 1, [] => []
  | fuel + 1, c :: rest =>
    match linkAt? (c :: rest) with
    | some (whole, inner, r4) => whole ++ tl " (" ++ inner ++ [')'] ++ linkSubGo fuel r4
    | none => c :: linkSubGo fuel rest

/-- A match of the image pattern `!\[(?P<alt_text>.*?)\]\((?P<url>.*?)\)`:
returns the alt text, the url, and the remainder. -/
def imageAt? (t : Text) : Option (Text × Text × Text) :=
  match t with
  | '!' :: '[' :: rest =>
    match findCloseGo rest.length (tl "]") rest with
    | some (alt, r2) =>
      match r2 with
      | '(' :: r3 =>
        match findCloseGo r3.length (tl ")") r3 with
        | some (url, r4) => some (alt, url, r4)
        | none => none
      | _ => none
    | none => none
  | _ => none

/-- `re.sub(PATTERNS["image"], r"\1 (\2)", text)`: alt text and url. -/
def imageSubGo : Nat → Text → Text
  | 0, t => t
  | _ + 1, [] => []
  | fuel + 1, c :: rest =>
    match imageAt? (c :: rest) with
    | some (alt, url, r4) => alt ++ tl " (" ++ url ++ [')'] ++ imageSubGo fuel r4
    | none => c :: imageSubGo fuel rest

/-- Non-greedy search for a marker, crossing newlines (DOTALL). -/
def findCloseDotGo : Nat → Text → Text → Option (Text × Text)
  | 0, _, _ => none
  | fuel + 1, marker, t =>
    if marker.isPrefixOf t then some ([], t.drop marker.length)
    else
      match t with
      | [] => none
      | c :: rest => (findCloseDotGo fuel marker rest).map (fun p => (c :: p.1, p.2))

/-- A match of the code-block pattern (a fence of two-or-more backticks,
optional space, language and quoted title, a newline, non-empty content up
to the repeated fence).  Returns the whole match and the remainder. -/
def codeAt? (t : Text) : Option (Text × Text) :=
  if (t.takeWhile (fun c => c = '`')).length < 2 then none
  else
    match
      (match
        (let a0 := t.drop (t.takeWhile (fun c => c = '`')).length
         let a1 := if a0.head? = some ' ' then a0.drop 1 else a0
         let a2 := a1.drop (a1.takeWhile isWordChar).length
         let a3 := if a2.head? = some ' ' then a2.drop 1 else a2
         match a3 with
         | '"' :: r =>
           if !(r.takeWhile isWordChar).isEmpty
               && (r.drop (r.takeWhile isWordChar).length).head? = some '"'
           then r.drop ((r.takeWhile isWordChar).length + 1)
           else a3
         | q :: r =>
           if q = Char.ofNat 39 then
             (if !(r.takeWhile isWordChar).isEmpty
                 && (r.drop (r.takeWhile isWordChar).length).head? = some (Char.ofNat 39)
              then r.drop ((r.takeWhile isWordChar).length + 1)
              else a3)
           else a3
         | _ => a3) with
       | '\n' :: _ :: content0 =>
         findCloseDotGo content0.length (t.takeWhile (fun c => c = '`')) content0
       | _ => none) with
    | some (_, r4) => some (t.take (t.length - r4.length), r4)
    | none => none

/-- `re.sub(PATTERNS["code"], r"===\1===", text)`: wrap each matched code
block in `===` markers. -/
def codeSubGo : Nat → Text → Text
  | 0, t => t
  | _ + 1, [] => []
  | fuel + 1, c :: rest =>
    match codeAt? (c :: rest) with
    | some (whole, r2) => tl "===" ++ whole ++ tl "===" ++ codeSubGo fuel r2
    | none => c :: codeSubGo fuel rest

/-- `process_markdown_to_plaintext` from `_text_processor.py`: definition
processing in plaintext mode, header upper-casing, the markdown strip, the
link and image rewrites, and the final code-block pass.  No pass protects
fenced content before the markdown strip runs. -/
def process_markdown_to_plaintext (text : Text) : Text :=
  let t1 := process_definitions text true
  let t2 := headerPass t1
  let t3 := markdownSub t2
  let t4 := linkSubGo t3.length t3
  let t5 := imageSubGo t4.length t4
  codeSubGo t5.length t5

/-! ## Formatter, official tab and page assembly

License metadata is modelled as a key-to-text mapping; Python truthiness
of a value is modelled as non-emptiness of the text.  The external
`wrap_text` helper (imported from outside the package) is passed in as a
function parameter. -/

/-- The metadata mapping of a license page. -/
abbrev Meta : Type := List (String × Text)

/-- `meta.get(k)`. -/
def metaGet (meta : Meta) (k : String) : Option Text :=
  (meta.find? (fun p => p.1 == k)).map (fun p => p.2)

/-- `meta.get(k, default)`. -/
def metaGetD (meta : Meta) (k : String) (d : Text) : Text := (metaGet meta k).getD d

/-- An f-string renders a missing (`None`) value as `None`. -/
def pyOptionStr (v : Option Text) : Text := v.getD (tl "None")

/-- `LicenseMetadata.has_official_license`:
`bool(meta.get("original_license_text", "").strip())`. -/
def has_official_license (meta : Meta) : Bool :=
  !(pyStrip (metaGetD meta "original_license_text" [])).isEmpty

/-- `textwrap.indent(text, prefix)`: prefix every line that holds
non-whitespace content. -/
def indentText (pre : Text) (t : Text) : Text :=
  joinSep ['\n']
    ((splitSep ['\n'] t).map (fun l => if (pyStrip l).isEmpty then l else pre ++ l))

/-- `Formatter.tabify(text, title, level, icon)`. -/
def tabify (text title : Text) (level : Nat) (icon : Text) : Text :=
  let indentation := List.replicate (4 * level) ' '
  let title_indent := if level = 1 then ([] : Text) else ' ' :: List.replicate (4 * (level - 1)) ' '
  let icon2 := if icon.isEmpty then ([] : Text) else icon ++ [' ']
  (title_indent ++ tl "=== \"" ++ icon2 ++ title ++ tl "\" ")
    ++ tl "\n\n" ++ indentText indentation (pyDedent text) ++ tl "\n"

/-- A value of the `options` mapping of `Formatter.blockify`: a string or a
nested string mapping. -/
inductive BlockOptVal : Type
  | s (v : Text)
  | d (kvs : List (Text × Text))

/-- One rendered option line of `Formatter.blockify` (falsy string values
are skipped). -/
def blockOptLine (sepCount : Nat) (k : Text) : BlockOptVal → Text
  | .d kvs =>
    List.replicate (sepCount + 1) ' ' ++ ' ' :: (k ++ tl ": ")
      ++ (tl "\x7b " ++ joinSep (tl ", ") (kvs.map (fun p => p.1 ++ tl ": " ++ p.2)) ++ tl " \x7d")
      ++ ['\n']
  | .s v =>
    if v.isEmpty then []
    else List.replicate (sepCount + 1) ' ' ++ k ++ tl ": " ++ v ++ ['\n']

/-- `Formatter.blockify(text, kind, title, separator_count, options)`. -/
def blockify (text kind title : Text) (sepCount : Nat)
    (options : List (Text × BlockOptVal)) : Text :=
  let separator := List.replicate sepCount '/'
  let optBlock := (options.map (fun p => blockOptLine sepCount p.1 p.2)).flatten
  '\n' :: (separator ++ ' ' :: (kind ++ tl " | " ++ title ++ ['\n'] ++ optBlock ++ ['\n']
    ++ text ++ ['\n'] ++ separator ++ ['\n']))

/-- One-or-two whitespace characters (`\s{1,2}` before a literal). -/
def ws12 (t : Text) : Option Text :=
  if (t.takeWhile isPySpace).length = 1 || (t.takeWhile isPySpace).length = 2
  then some (t.drop (t.takeWhile isPySpace).length) else none

/-- One whitespace character. -/
def ws1 : Text → Option Text
  | w :: r => if isPySpace w then some r else none
  | [] => none

/-- A literal string prefix. -/
def litPre (s : String) (t : Text) : Option Text :=
  if (tl s).isPrefixOf t then some (t.drop (tl s).length) else none

/-- The `\{\{\s{1,2}plain_name\s\|\strim\s{1,2}\}\}` template token of
`Formatter.interpretation_block`'s plaintext branch. -/
def plainNameTokAt? (t : Text) : Option Text :=
  (litPre "\x7b\x7b" t).bind fun a =>
  (ws12 a).bind fun b =>
  (litPre "plain_name" b).bind fun d =>
  (ws1 d).bind fun e =>
  (litPre "|" e).bind fun g =>
  (ws1 g).bind fun h =>
  (litPre "trim" h).bind fun i =>
  (ws12 i).bind fun j =>
  litPre "\x7d\x7d" j

/-- `re.sub` of the template token by a fixed replacement. -/
def plainNameTokSubGo : Nat → Text → Text → Text
  | 0, _, t => t
  | _ + 1, _, [] => []
  | fuel + 1, rep, c :: rest =>
    match plainNameTokAt? (c :: rest) with
    | some r2 => rep ++ plainNameTokSubGo fuel rep r2
    | none => c :: plainNameTokSubGo fuel rep rest

/-- `Formatter.interpretation_block(kind, meta, has_official, title,
plaintext_content)`; `wrap` is the external `wrap_text`. -/
def interpretation_block (wrap : Text → Text) (kind : String) (meta : Meta)
    (has_official : Bool) (title : Text) (plaintext_content : Text) : Text :=
  if !has_official then []
  else if kind == "reader" then
    blockify (pyDedent (metaGetD meta "interpretation_text" [])) (tl "note")
      (metaGetD meta "interpretation_title" []) 4 []
  else if kind == "markdown" then
    tl "### " ++ pyOptionStr (metaGet meta "interpretation_title") ++ tl "\n\n"
      ++ wrap (pyDedent (metaGetD meta "interpretation_text" []))
  else if kind == "plaintext" then
    (plainNameTokSubGo (metaGetD meta "interpretation_title" []).length
        (title.map Char.toUpper) (metaGetD meta "interpretation_title" [])).map Char.toUpper
      ++ tl "\n\n"
      ++ (if !plaintext_content.isEmpty then plaintext_content
          else pyDedent (metaGetD meta "interpretation_text" []))
  else []

/-- `OfficialTabGenerator.generate(original_license_text, meta,
has_official)`. -/
def officialTabGenerate (icon : Text) (original_license_text : Text) (meta : Meta)
    (has_official : Bool) : Text :=
  if !has_official then []
  else
    tabify
      (if !(metaGetD meta "link_in_original" []).isEmpty
       then original_license_text
       else original_license_text ++ tl "\n\n" ++ pyOptionStr (metaGet meta "official_link"))
      (tl "official") 1 icon

/-- `LicenseContent.license_content`: the concatenated tabs (the official
tab only when the license has an official text), wrapped in the outer
admonition block, with the optional outro appended. -/
def license_content (meta : Meta) (has_official : Bool)
    (readerT embedT markdownT plaintextT changelogT officialT : Text) : Text :=
  let tabs := readerT ++ ['\n'] ++ embedT ++ ['\n'] ++ markdownT ++ ['\n']
    ++ plaintextT ++ ['\n'] ++ changelogT
  let tabs2 := if has_official then tabs ++ '\n' :: officialT else tabs
  let outro := if !(metaGetD meta "outro" []).isEmpty
               then tl "\n\n" ++ metaGetD meta "outro" [] ++ ['\n'] else tl "\n"
  blockify tabs2 (tl "admonition") (tl "The " ++ pyOptionStr (metaGet meta "plain_name")) 6
    [(tl "type", BlockOptVal.s (tl "license"))] ++ outro

/-! ## Helper lemmas about construction and merging -/

theorem exceptMapM_ok {α β : Type} (g : α → Except String β) (hfun : α → β) :
    ∀ l : List α, (∀ x ∈ l, g x = Except.ok (hfun x)) →
    l.mapM g = Except.ok (l.map hfun) := by
  intro l
  induction l with
  | nil => intro _; rfl
  | cons a rest ih =>
    intro h
    rw [List.mapM_cons, h a (List.mem_cons_self a rest),
      ih (fun x hx => h x (List.mem_cons_of_mem a hx))]
    rfl

/-- Construction succeeds on texts free of caret markers and inline
annotations, storing the normalized text and the supplied footnotes. -/
theorem Paragraph.new_safe (t : Text) (fns : List Footnote)
    (h1 : '^' ∉ t) (h2 : '(' ∉ t) :
    Paragraph.new t [] [] fns = Except.ok ⟨pyNormalize t, [], [], fns⟩ := by
  unfold Paragraph.new
  rw [caretMatches_empty h1, inlineAnnMatches_empty h2]
  rfl

/-- Inversion: a constructed paragraph stores the normalized text and the
supplied footnotes. -/
theorem Paragraph.new_ok {t : Text} {fcs anns : List Citation} {fns : List Footnote}
    {p : Paragraph} (h : Paragraph.new t fcs anns fns = Except.ok p) :
    p.text = pyNormalize t ∧ p.footnotes = fns := by
  unfold Paragraph.new at h
  rcases hf : (if fcs.isEmpty then (caretMatches t).mapM Citation.from_match
      else Except.ok fcs) with e | v
  · rw [hf] at h
    simp at h
  · rw [hf] at h
    rcases ha : (if anns.isEmpty then (inlineAnnMatches t).mapM Citation.from_match
        else Except.ok anns) with e | w
    · rw [ha] at h
      simp at h
    · rw [ha] at h
      simp only [Except.ok.injEq] at h
      rw [← h]
      exact ⟨rfl, rfl⟩

theorem mergeLoop_no_collision (selfFns : List Footnote) :
    ∀ fns : List Footnote, ∀ otherText : Text, ∀ maxF : Nat,
    (∀ f ∈ fns, selfFns.any (fun g => g.citation == f.citation) = false) →
    mergeLoop selfFns fns otherText maxF = (otherText, fns) := by
  intro fns
  induction fns with
  | nil => intro _ _ _; rfl
  | cons f rest ih =>
    intro otherText maxF h
    have hf := h f (List.mem_cons_self f rest)
    simp only [mergeLoop, hf, Bool.false_eq_true, if_false]
    rw [ih otherText maxF (fun x hx => h x (List.mem_cons_of_mem f hx))]

/-- `merge_with` without ordinal collisions: text concatenation and
footnote concatenation. -/
theorem merge_with_no_collision (self other : Paragraph) (sep : Text)
    (h : ∀ f ∈ other.footnotes, self.footnotes.any (fun g => g.citation == f.citation) = false) :
    merge_with self other sep
      = Paragraph.new (self.text ++ sep ++ other.text) [] []
          (self.footnotes ++ other.footnotes) := by
  unfold merge_with
  rw [mergeLoop_no_collision self.footnotes other.footnotes other.text
    ((self.footnotes.map Footnote.citation).foldl max 0) h]

/-- Whether `pat` occurs as a contiguous substring of the text. -/
def containsSubstr (pat : Text) : Text → Bool
  | [] => pat.isPrefixOf []
  | c :: rest => pat.isPrefixOf (c :: rest) || containsSubstr pat rest

/-! ## The claims -/

/-- **C4.**  For every input text, the annotation-to-footnote
transformation replaces the annotation matches, in scan (first-occurrence)
order, by the footnote references `[^1]`, `[^2]`, … (the explicitly
sequential rewriter `annotRewriteFrom … 1`), and appends the generated
`[^i]: body` definitions — numbered by the same sequence over the match
bodies in first-occurrence order — at the end of the document; the spec's
end-to-end scenario (with its body line newline-terminated, as the
annotation pattern requires) is evaluated as a second conjunct. -/
theorem c4_annotations_to_footnotes_sequential :
    (∀ text : Text,
      transform_text_to_footnotes text
        = (if (annotBodies text.length text).isEmpty
           then annotRewriteFrom text.length 1 text
           else annotRewriteFrom text.length 1 text ++ tl "\n\n"
                ++ footnoteDefsFrom 1 (annotBodies text.length text)) ++ tl "\n\n")
    ∧ transform_text_to_footnotes (tl "See the note(1).\n\x7b .annotate \x7d\n1. This is the note.\n")
      = tl "See the note[^1]\n\n[^1]: This is the note.\n\n" := by
  constructor
  · intro text
    unfold transform_text_to_footnotes
    rw [annotSubGo_spec text.length [] text]
    simp
  · decide

/-- **C5 (code bug).**  Evaluating the markdown-to-plaintext pipeline at a
document whose fenced block contains literal `**bold**`: the emphasis
substitution strips the markers inside the fence (no protection pass runs
before it), so the fenced content's literal characters are changed, while
`**` outside the fence is stripped as the claim states. -/
theorem c5_fence_not_protected :
    process_markdown_to_plaintext (tl "out **bold** side\n```\n**bold**\n```\n")
      = tl "out bold side\n`\nbold\n`\n"
    ∧ containsSubstr (tl "**bold**")
        (process_markdown_to_plaintext (tl "out **bold** side\n```\n**bold**\n```\n")) = false := by
  constructor
  · decide
  · decide

/-- **C6 (code bug).**  The footnote-citation scan at `Paragraph`
construction: on `"See [^1]"` the `initial` pattern produces one match
carrying only the group `citation`, `Citation.from_match` then reads the
undefined group `number` and faults, so construction raises instead of
producing a footnote-kind Citation for the marker. -/
theorem c6_footnote_scan_crash :
    caretMatches (tl "See [^1]") = [⟨[("citation", tl "1")], 0, 8⟩]
    ∧ Citation.from_match ⟨[("citation", tl "1")], 0, 8⟩ = Except.error "no such group"
    ∧ Paragraph.new (tl "See [^1]") [] [] [] = Except.error "no such group" := by
  refine ⟨by decide, rfl, rfl⟩

/-- **C9 (counterexample).**  Two citations `a` (span 0–10) and `b`
(span 5–6): `a > b` holds (`__gt__` compares `end` positions) but `b < a`
does not (`__lt__` compares `start` positions), refuting "`a > b` exactly
when `b < a`". -/
theorem c9_counterexample :
    Citation.gtb ⟨1, CitKind.footnote, 0, 10, none⟩ ⟨1, CitKind.footnote, 5, 6, none⟩ = true
    ∧ Citation.ltb ⟨1, CitKind.footnote, 5, 6, none⟩ ⟨1, CitKind.footnote, 0, 10, none⟩ = false := by
  decide

/-- **C9 (amended).**  `a < b` exactly when `a.start < b.start`; `a > b`
exactly when `a.end > b.end` (not the converse of `<`); equality exactly
when span, ordinal and kind coincide. -/
theorem c9_citation_order_amended (a b : Citation) :
    (Citation.ltb a b = true ↔ a.start < b.start)
    ∧ (Citation.gtb a b = true ↔ b.stop < a.stop)
    ∧ (Citation.eqb a b = true
        ↔ (a.start = b.start ∧ a.stop = b.stop ∧ a.number = b.number ∧ a.kind = b.kind)) := by
  refine ⟨?_, ?_, ?_⟩
  · simp [Citation.ltb]
  · simp [Citation.gtb]
  · simp [Citation.eqb, and_assoc]

/-- **C10.**  Paragraph equality is the inherited string equality: any two
constructed Paragraphs whose normalized texts coincide compare equal, no
matter how their footnote lists differ. -/
theorem c10_paragraph_eq_ignores_footnotes (t1 t2 : Text) (fns1 fns2 : List Footnote)
    (p q : Paragraph) (hp : Paragraph.new t1 [] [] fns1 = Except.ok p)
    (hq : Paragraph.new t2 [] [] fns2 = Except.ok q)
    (ht : pyNormalize t1 = pyNormalize t2) :
    Paragraph.beq p q = true := by
  obtain ⟨hpt, -⟩ := Paragraph.new_ok hp
  obtain ⟨hqt, -⟩ := Paragraph.new_ok hq
  simp [Paragraph.beq, hpt, hqt, ht]

/-- Witness for C10 at concrete inputs: same text, different footnote
lists, equal paragraphs. -/
theorem c10_witness :
    (Paragraph.new (tl "same text") [] [] [⟨1, tl "x"⟩]
        = Except.ok ⟨tl "same text", [], [], [⟨1, tl "x"⟩]⟩
      ∧ Paragraph.new (tl "same text") [] [] []
        = Except.ok ⟨tl "same text", [], [], []⟩
      ∧ pyNormalize (tl "same text") = pyNormalize (tl "same text"))
    ∧ Paragraph.beq ⟨tl "same text", [], [], [⟨1, tl "x"⟩]⟩ ⟨tl "same text", [], [], []⟩ = true :=
  ⟨⟨rfl, rfl, rfl⟩,
    c10_paragraph_eq_ignores_footnotes (tl "same text") (tl "same text")
      [⟨1, tl "x"⟩] [] _ _ rfl rfl rfl⟩

/-- **C7 (counterexample).**  An annotation-kind citation that retains its
backing match still fails to convert when that match is an `inline`-pattern
match (groups `citation`, `num` — no `annotation` group): the body lookup
raises.  And when an override ordinal `0` is supplied to a convertible
citation, `new_number or self.number` is falsy and the citation's own
ordinal is returned instead of the override. -/
theorem c7_counterexample :
    Citation.to_footnote
        ⟨1, CitKind.annot, 0, 3, some ⟨[("citation", tl "(1)"), ("num", tl "1")], 0, 3⟩⟩ none
      = Except.error "no such group"
    ∧ Citation.to_footnote
        ⟨2, CitKind.annot, 0, 3, some ⟨[("citation", tl "(2)"), ("annotation", tl "body")], 0, 3⟩⟩
        (some 0)
      = Except.ok ⟨2, tl "body"⟩ := by
  exact ⟨rfl, rfl⟩

/-- **C7 (amended).**  `to_footnote` succeeds exactly when the citation is
annotation-kind, retains its backing match, and that match defines the
`annotation` group; on success the footnote carries the stripped group body
and the override ordinal only when one is supplied and non-zero (Python's
`new_number or self.number`); every footnote-kind citation, and every
citation without a backing match, fails with the unsupported-conversion
error. -/
theorem c7_to_footnote_amended (c : Citation) (nn : Option Nat) :
    ((∃ fn, c.to_footnote nn = Except.ok fn)
      ↔ c.kind = CitKind.annot
        ∧ ∃ m, c.mtch = some m ∧ ∃ body, m.group "annotation" = Except.ok body)
    ∧ (∀ fn, c.to_footnote nn = Except.ok fn →
        (fn.citation = match nn with
          | some n => if n = 0 then c.number else n
          | none => c.number)
        ∧ ∃ m body, c.mtch = some m ∧ m.group "annotation" = Except.ok body
            ∧ fn.content = pyStrip body)
    ∧ (c.kind = CitKind.footnote →
        c.to_footnote nn
          = Except.error "We can only convert annotations with a Match object to footnotes.")
    ∧ (c.mtch = none →
        c.to_footnote nn
          = Except.error "We can only convert annotations with a Match object to footnotes.") := by
  rcases hm : c.mtch with _ | m
  · have hval : c.to_footnote nn
        = Except.error "We can only convert annotations with a Match object to footnotes." := by
      unfold Citation.to_footnote
      rw [hm]
    refine ⟨⟨fun ⟨fn, hfn⟩ => ?_, fun ⟨_, m, hm2, _⟩ => ?_⟩,
      fun fn hfn => ?_, fun _ => hval, fun _ => hval⟩
    · rw [hval] at hfn
      exact absurd hfn (by simp)
    · exact absurd hm2 (by simp)
    · rw [hval] at hfn
      exact absurd hfn (by simp)
  · by_cases hk : c.kind = CitKind.annot
    · rcases hg : m.group "annotation" with e | body
      · have hval : c.to_footnote nn = Except.error e := by
          unfold Citation.to_footnote
          rw [hm]
          simp only [hk, if_true, hg]
        refine ⟨⟨fun ⟨fn, hfn⟩ => ?_, fun ⟨_, m2, hm2, body, hb⟩ => ?_⟩,
          fun fn hfn => ?_, fun hkf => ?_, fun hnone => ?_⟩
        · rw [hval] at hfn
          exact absurd hfn (by simp)
        · rw [← Option.some_inj.mp hm2, hg] at hb
          exact absurd hb (by simp)
        · rw [hval] at hfn
          exact absurd hfn (by simp)
        · rw [hk] at hkf
          exact absurd hkf (by simp)
        · exact absurd hnone (by simp)
      · have hval : c.to_footnote nn
            = Except.ok ⟨(match nn with
                | some n => if n = 0 then c.number else n
                | none => c.number), pyStrip body⟩ := by
          unfold Citation.to_footnote
          rw [hm]
          simp only [hk, if_true, hg]
        refine ⟨⟨fun _ => ⟨hk, m, rfl, body, hg⟩, fun _ => ⟨_, hval⟩⟩,
          fun fn hfn => ?_, fun hkf => ?_, fun hnone => ?_⟩
        · rw [hval] at hfn
          have hfn2 := Except.ok.inj hfn
          refine ⟨?_, m, body, rfl, hg, ?_⟩
          · rw [← hfn2]
          · rw [← hfn2]
        · rw [hk] at hkf
          exact absurd hkf (by simp)
        · exact absurd hnone (by simp)
    · have hval : c.to_footnote nn
          = Except.error "We can only convert annotations with a Match object to footnotes." := by
        unfold Citation.to_footnote
        rw [hm]
        have hk2 : (c.kind = CitKind.annot) = False := eq_false hk
        simp only [hk2, if_false]
      refine ⟨⟨fun ⟨fn, hfn⟩ => ?_, fun ⟨hka, _⟩ => absurd hka hk⟩,
        fun fn hfn => ?_, fun _ => hval, fun _ => hval⟩
      · rw [hval] at hfn
        exact absurd hfn (by simp)
      · rw [hval] at hfn
        exact absurd hfn (by simp)

/-- Witness for C7 at a concrete input: a footnote-kind citation fails with
the unsupported-conversion error. -/
theorem c7_witness :
    Citation.to_footnote ⟨3, CitKind.footnote, 0, 2, none⟩ none
      = Except.error "We can only convert annotations with a Match object to footnotes." :=
  (c7_to_footnote_amended ⟨3, CitKind.footnote, 0, 2, none⟩ none).2.2.1 rfl

/-- **C8.**  When the metadata lacks an official original text
(`has_official_license` is `false`), the interpretation block and the
official tab both evaluate to the empty string, and the assembled page body
does not depend on the official tab text at all (it is omitted). -/
theorem c8_no_official_empty_blocks (wrap : Text → Text) (kind : String) (meta : Meta)
    (title plaintext_content icon olt : Text)
    (readerT embedT markdownT plaintextT changelogT officialT : Text)
    (h : has_official_license meta = false) :
    interpretation_block wrap kind meta (has_official_license meta) title plaintext_content = []
    ∧ officialTabGenerate icon olt meta (has_official_license meta) = []
    ∧ ∀ officialT2 : Text,
        license_content meta (has_official_license meta)
            readerT embedT markdownT plaintextT changelogT officialT
          = license_content meta (has_official_license meta)
            readerT embedT markdownT plaintextT changelogT officialT2 := by
  rw [h]
  exact ⟨rfl, rfl, fun _ => rfl⟩

/-- Witness for C8: metadata whose `original_license_text` is whitespace
only is treated as lacking an official text, and all three conclusions hold
at concrete tab texts. -/
theorem c8_witness :
    has_official_license [("original_license_text", tl "  \n")] = false
    ∧ (interpretation_block id "reader" [("original_license_text", tl "  \n")]
          (has_official_license [("original_license_text", tl "  \n")]) [] [] = []
      ∧ officialTabGenerate [] [] [("original_license_text", tl "  \n")]
          (has_official_license [("original_license_text", tl "  \n")]) = []
      ∧ ∀ officialT2 : Text,
          license_content [("original_license_text", tl "  \n")]
              (has_official_license [("original_license_text", tl "  \n")])
              (tl "r") (tl "e") (tl "m") (tl "p") (tl "c") (tl "off")
            = license_content [("original_license_text", tl "  \n")]
              (has_official_license [("original_license_text", tl "  \n")])
              (tl "r") (tl "e") (tl "m") (tl "p") (tl "c") officialT2) :=
  ⟨rfl, c8_no_official_empty_blocks id "reader" [("original_license_text", tl "  \n")]
    [] [] [] [] (tl "r") (tl "e") (tl "m") (tl "p") (tl "c") (tl "off") rfl⟩

/-- `merge_with` rewritten through an explicit `mergeLoop` result. -/
theorem merge_with_eq (self other : Paragraph) (sep : Text) (t2 : Text) (fns2 : List Footnote)
    (h : mergeLoop self.footnotes other.footnotes other.text
          ((self.footnotes.map Footnote.citation).foldl max 0) = (t2, fns2)) :
    merge_with self other sep
      = Paragraph.new (self.text ++ sep ++ t2) [] [] (self.footnotes ++ fns2) := by
  unfold merge_with
  rw [h]

/-- **C3 (counterexample).**  Two paragraphs that each hold footnote
ordinal 1 with different bodies, written with the codebase's own `[^n]`
reference style: `merge_with` raises instead of returning a merged
Paragraph — the collision rewrite targets `[1]` (which does not occur), and
rebuilding the merged text re-scans the `[^1]` markers, whose
`Citation.from_match` faults on the undefined `number` group. -/
theorem c3_counterexample :
    merge_with ⟨tl "a[^1]", [], [], [⟨1, tl "x"⟩]⟩ ⟨tl "b[^1]", [], [], [⟨1, tl "y"⟩]⟩
      (tl "\n\n") = Except.error "no such group" := by
  rfl

/-- **C3 (amended).**  For `[n]`-style reference texts that construction
accepts: merging a receiver holding the single footnote `(n, a)` with an
incoming paragraph holding `(n, b)` followed by non-colliding footnotes
renumbers the conflicting incoming footnote to `max(existing ordinals) + 1
= n + 1`, passes the others through unchanged, produces pairwise distinct
ordinals, and rewrites every incoming `[n]` reference — and only those — to
`[n+1]`, so each reference resolves to its original body. -/
theorem c3_merge_collision_amended
    (n : Nat) (a b : Text) (rest2 : List Footnote) (t1 t2 sep : Text)
    (hrest : ∀ f ∈ rest2, f.citation ≠ n ∧ f.citation ≠ n + 1)
    (hnodup : (rest2.map Footnote.citation).Nodup)
    (hcanon : canonRefs t2 = true)
    (hc1 : '^' ∉ t1 ++ sep ++ replaceSub (refTok n) (refTok (n + 1)) t2)
    (hc2 : '(' ∉ t1 ++ sep ++ replaceSub (refTok n) (refTok (n + 1)) t2) :
    ∃ q : Paragraph,
      merge_with ⟨t1, [], [], [⟨n, a⟩]⟩ ⟨t2, [], [], ⟨n, b⟩ :: rest2⟩ sep = Except.ok q
      ∧ q.footnotes = ⟨n, a⟩ :: ⟨n + 1, b⟩ :: rest2
      ∧ (q.footnotes.map Footnote.citation).Nodup
      ∧ q.text = pyNormalize (t1 ++ sep ++ replaceSub (refTok n) (refTok (n + 1)) t2)
      ∧ scanRefs (replaceSub (refTok n) (refTok (n + 1)) t2)
          = (scanRefs t2).map (fun k => if k = n then n + 1 else k) := by
  have hstep : mergeLoop [(⟨n, a⟩ : Footnote)] ((⟨n, b⟩ : Footnote) :: rest2) t2 n
      = (replaceSub (refTok n) (refTok (n + 1)) t2, (⟨n + 1, b⟩ : Footnote) :: rest2) := by
    have hany : ([(⟨n, a⟩ : Footnote)].any
        (fun g => g.citation == (⟨n, b⟩ : Footnote).citation)) = true := by simp
    simp only [mergeLoop, hany, if_true]
    rw [mergeLoop_no_collision [(⟨n, a⟩ : Footnote)] rest2
      (replaceSub (refTok n) (refTok (n + 1)) t2) (n + 1)
      (fun f hf => by
        simp only [List.any_cons, List.any_nil, Bool.or_false]
        exact beq_eq_false_iff_ne.mpr (fun he => (hrest f hf).1 he.symm))]
  have hfold : (([(⟨n, a⟩ : Footnote)].map Footnote.citation).foldl max 0) = n := by simp
  have hmw := merge_with_eq ⟨t1, [], [], [⟨n, a⟩]⟩ ⟨t2, [], [], ⟨n, b⟩ :: rest2⟩ sep
    (replaceSub (refTok n) (refTok (n + 1)) t2) ((⟨n + 1, b⟩ : Footnote) :: rest2)
    (by rw [show (([(⟨n, a⟩ : Footnote)].map Footnote.citation).foldl max 0) = n from hfold]
        exact hstep)
  rw [Paragraph.new_safe _ _ hc1 hc2] at hmw
  refine ⟨⟨pyNormalize (t1 ++ sep ++ replaceSub (refTok n) (refTok (n + 1)) t2), [], [],
    ⟨n, a⟩ :: ⟨n + 1, b⟩ :: rest2⟩, hmw, rfl, ?_, rfl, ?_⟩
  · simp only [List.map_cons, List.nodup_cons, List.mem_cons, List.mem_map]
    refine ⟨?_, ?_, hnodup⟩
    · push_neg
      refine ⟨by omega, fun f hf hfc => (hrest f hf).1 hfc⟩
    · push_neg
      exact fun f hf hfc => (hrest f hf).2 hfc
  · rw [replaceSub_eq_subRefs n (n + 1) t2.length t2 le_rfl hcanon,
      scanRefs_subRefs _ t2.length t2 le_rfl]

/-- Witness for C3 at concrete paragraphs: receiver `a[1]` with footnote
`(1, x)`, incoming `b[1] [5]` with footnotes `(1, y)`, `(5, z)`. -/
theorem c3_witness :
    ∃ q : Paragraph,
      merge_with ⟨tl "a[1]", [], [], [⟨1, tl "x"⟩]⟩
          ⟨tl "b[1] [5]", [], [], [⟨1, tl "y"⟩, ⟨5, tl "z"⟩]⟩ (tl "\n\n") = Except.ok q
      ∧ q.footnotes = [⟨1, tl "x"⟩, ⟨2, tl "y"⟩, ⟨5, tl "z"⟩]
      ∧ (q.footnotes.map Footnote.citation).Nodup
      ∧ q.text = pyNormalize (tl "a[1]" ++ tl "\n\n"
          ++ replaceSub (refTok 1) (refTok 2) (tl "b[1] [5]"))
      ∧ scanRefs (replaceSub (refTok 1) (refTok 2) (tl "b[1] [5]"))
          = (scanRefs (tl "b[1] [5]")).map (fun k => if k = 1 then 2 else k) :=
  c3_merge_collision_amended 1 (tl "x") (tl "y") [⟨5, tl "z"⟩] (tl "a[1]") (tl "b[1] [5]")
    (tl "\n\n") (by decide) (by decide) (by decide) (by decide) (by decide)

/-- The realign dictionary holds no binding for an absent key. -/
theorem realignFilter_not_mem (n : Nat) : ∀ l : List Nat, ∀ i : Nat, n ∉ l →
    (((l.enumFrom i).map (fun p => (p.2, p.1 + 1))).filter (fun p => p.1 == n)) = [] := by
  intro l
  induction l with
  | nil => intro i _; rfl
  | cons a rest ih =>
    intro i hn
    rw [List.enumFrom_cons, List.map_cons, List.filter_cons]
    have hne : (a == n) = false :=
      beq_eq_false_iff_ne.mpr (fun h => hn (h ▸ List.mem_cons_self a rest))
    simp only [hne, Bool.false_eq_true, if_false]
    exact ih (i + 1) (fun h => hn (List.mem_cons_of_mem a h))

/-- On a duplicate-free key list the realign dictionary holds exactly one
binding for each key, recording its position. -/
theorem realignFilter_mem (n : Nat) : ∀ l : List Nat, ∀ i : Nat, l.Nodup → n ∈ l →
    (((l.enumFrom i).map (fun p => (p.2, p.1 + 1))).filter (fun p => p.1 == n))
      = [(n, i + l.indexOf n + 1)] := by
  intro l
  induction l with
  | nil => intro i _ h; cases h
  | cons a rest ih =>
    intro i hnd hmem
    rw [List.enumFrom_cons, List.map_cons, List.filter_cons]
    by_cases ha : a = n
    · subst ha
      have hrest : a ∉ rest := (List.nodup_cons.mp hnd).1
      simp only [beq_self_eq_true, if_true]
      rw [realignFilter_not_mem a rest (i + 1) hrest, List.indexOf_cons_self]
    · have hmem2 : n ∈ rest := by
        rcases List.mem_cons.mp hmem with h1 | h2
        · exact absurd h1.symm ha
        · exact h2
      have hne : (a == n) = false := beq_eq_false_iff_ne.mpr ha
      simp only [hne, Bool.false_eq_true, if_false]
      rw [ih (i + 1) (List.nodup_cons.mp hnd).2 hmem2,
        List.indexOf_cons_ne rest ha]
      have : i + 1 + rest.indexOf n + 1 = i + (rest.indexOf n).succ + 1 := by omega
      rw [this]

/-- On duplicate-free ordinals, the realign mapping sends each ordinal to
its position in the sorted ordinal list, starting at 1. -/
theorem realignMapping_mem (fns : List Footnote) (n : Nat)
    (hnodup : (fns.map Footnote.citation).Nodup)
    (hmem : n ∈ fns.map Footnote.citation) :
    realignMapping fns n
      = (List.insertionSort (· ≤ ·) (fns.map Footnote.citation)).indexOf n + 1 := by
  have hperm := List.perm_insertionSort (· ≤ ·) (fns.map Footnote.citation)
  have hnd : (List.insertionSort (· ≤ ·) (fns.map Footnote.citation)).Nodup :=
    hperm.symm.nodup hnodup
  have hmem2 : n ∈ List.insertionSort (· ≤ ·) (fns.map Footnote.citation) :=
    hperm.mem_iff.mpr hmem
  have henum : (List.insertionSort (· ≤ ·) (fns.map Footnote.citation)).enum
      = (List.insertionSort (· ≤ ·) (fns.map Footnote.citation)).enumFrom 0 := rfl
  simp only [realignMapping]
  rw [henum, realignFilter_mem n _ 0 hnd hmem2]
  simp

/-- On a duplicate-free list, indexing each element by its own position
enumerates the positions. -/
theorem map_indexOf_range (l : List Nat) (hnd : l.Nodup) :
    l.map (fun k => l.indexOf k) = List.range l.length := by
  apply List.ext_getElem
  · simp
  · intro i h1 h2
    simp only [List.length_map] at h1
    rw [List.getElem_map, List.getElem_range]
    have hmem : l[i] ∈ l := List.getElem_mem h1
    have hlt : List.indexOf l[i] l < l.length := List.indexOf_lt_length.mpr hmem
    have hget := List.indexOf_get hlt
    have hfin : (⟨List.indexOf l[i] l, hlt⟩ : Fin l.length) = ⟨i, h1⟩ := by
      rw [← List.Nodup.get_inj_iff hnd, hget]
      simp [List.get_eq_getElem]
    exact congrArg Fin.val hfin

/-- In a sorted duplicate-free list, position order agrees with value
order. -/
theorem sorted_indexOf_lt_iff (l : List Nat) (hs : List.Sorted (· ≤ ·) l) (_hnd : l.Nodup)
    {i j : Nat} (hi : i ∈ l) (hj : j ∈ l) :
    i < j ↔ List.indexOf i l < List.indexOf j l := by
  have hilt : List.indexOf i l < l.length := List.indexOf_lt_length.mpr hi
  have hjlt : List.indexOf j l < l.length := List.indexOf_lt_length.mpr hj
  have hgi := List.indexOf_get hilt
  have hgj := List.indexOf_get hjlt
  constructor
  · intro hij
    rcases Nat.lt_trichotomy (List.indexOf i l) (List.indexOf j l) with h | h | h
    · exact h
    · exfalso
      have : i = j := by
        rw [← hgi, ← hgj]
        exact congrArg l.get (Fin.ext h)
      omega
    · exfalso
      have hle : l.get ⟨List.indexOf j l, hjlt⟩ ≤ l.get ⟨List.indexOf i l, hilt⟩ :=
        hs.rel_get_of_lt (Fin.mk_lt_mk.mpr h)
      rw [hgi, hgj] at hle
      omega
  · intro h
    have hle : l.get ⟨List.indexOf i l, hilt⟩ ≤ l.get ⟨List.indexOf j l, hjlt⟩ :=
      hs.rel_get_of_lt (Fin.mk_lt_mk.mpr h)
    rw [hgi, hgj] at hle
    rcases Nat.lt_or_ge i j with h2 | h2
    · exact h2
    · exfalso
      have heq : i = j := le_antisymm hle h2
      subst heq
      omega

/-- **C1 (counterexample).**  A Paragraph whose text cites its footnote
with the codebase's own `[^n]` reference style: `with_footnotes_realigned`
raises instead of returning a realigned Paragraph — the renumber rewrite
targets `[n]` (which does not occur), and rebuilding the Paragraph re-scans
the untouched `[^3]` marker, whose `Citation.from_match` faults on the
undefined `number` group. -/
theorem c1_counterexample :
    with_footnotes_realigned ⟨tl "a[^3]", [], [], [⟨3, tl "x"⟩]⟩
      = Except.error "no such group" := by
  rfl

/-- **C1 (amended).**  For `[n]`-style reference texts that construction
accepts, with duplicate-free footnote ordinals: `with_footnotes_realigned`
returns a Paragraph whose footnotes keep their bodies and relative order
while their ordinals become exactly a permutation of `1..N` assigned in
increasing order of the original ordinals (order-preserving density), and
whose text has every `[k]` reference rewritten by the same old-to-new
mapping. -/
theorem c1_realign_amended (t : Text) (fc an : List Citation) (fns : List Footnote)
    (hne : fns ≠ [])
    (hnodup : (fns.map Footnote.citation).Nodup)
    (hc1 : '^' ∉ subRefs (realignMapping fns) t)
    (hc2 : '(' ∉ subRefs (realignMapping fns) t)
    (hnorm : pyNormalize (subRefs (realignMapping fns) t) = subRefs (realignMapping fns) t) :
    ∃ q : Paragraph,
      with_footnotes_realigned ⟨t, fc, an, fns⟩ = Except.ok q
      ∧ q.footnotes = fns.map (fun f => ⟨realignMapping fns f.citation, f.content⟩)
      ∧ (q.footnotes.map Footnote.citation).Perm (List.range' 1 fns.length)
      ∧ (∀ i ∈ fns.map Footnote.citation, ∀ j ∈ fns.map Footnote.citation,
          (i < j ↔ realignMapping fns i < realignMapping fns j))
      ∧ scanRefs q.text = (scanRefs t).map (realignMapping fns) := by
  have hemp : fns.isEmpty = false := by
    cases fns
    · exact absurd rfl hne
    · rfl
  have hmw : with_footnotes_realigned ⟨t, fc, an, fns⟩
      = Paragraph.new (subRefs (realignMapping fns) t) [] []
          (fns.map (fun f => ⟨realignMapping fns f.citation, f.content⟩)) := by
    unfold with_footnotes_realigned realignNewText realignNewFootnotes
    simp only [hemp, Bool.false_eq_true, if_false]
  rw [Paragraph.new_safe _ _ hc1 hc2] at hmw
  have hperm := List.perm_insertionSort (· ≤ ·) (fns.map Footnote.citation)
  have hnd : (List.insertionSort (· ≤ ·) (fns.map Footnote.citation)).Nodup :=
    hperm.symm.nodup hnodup
  refine ⟨⟨pyNormalize (subRefs (realignMapping fns) t), [], [],
    fns.map (fun f => ⟨realignMapping fns f.citation, f.content⟩)⟩, hmw, rfl, ?_, ?_, ?_⟩
  · show ((fns.map (fun f => (⟨realignMapping fns f.citation, f.content⟩ : Footnote))).map
      Footnote.citation).Perm (List.range' 1 fns.length)
    rw [List.map_map]
    show (fns.map (fun f => realignMapping fns f.citation)).Perm (List.range' 1 fns.length)
    have h1 : fns.map (fun f => realignMapping fns f.citation)
        = (fns.map Footnote.citation).map (realignMapping fns) := by
      rw [List.map_map]
      rfl
    rw [h1, List.map_congr_left (fun a ha => realignMapping_mem fns a hnodup ha)]
    refine (hperm.symm.map _).trans ?_
    have h2 : (List.insertionSort (· ≤ ·) (fns.map Footnote.citation)).map
        (fun k => (List.insertionSort (· ≤ ·) (fns.map Footnote.citation)).indexOf k + 1)
        = List.range' 1 fns.length := by
      have hm : (List.insertionSort (· ≤ ·) (fns.map Footnote.citation)).map
          (fun k => (List.insertionSort (· ≤ ·) (fns.map Footnote.citation)).indexOf k + 1)
          = ((List.insertionSort (· ≤ ·) (fns.map Footnote.citation)).map
              (fun k => (List.insertionSort (· ≤ ·) (fns.map Footnote.citation)).indexOf k)).map
              (fun x => x + 1) := by
        rw [List.map_map]
        rfl
      rw [hm, map_indexOf_range _ hnd, List.range'_eq_map_range,
        List.length_insertionSort, List.length_map]
      exact List.map_congr_left (fun a _ => by omega)
    rw [h2]
  · intro i hi j hj
    rw [realignMapping_mem fns i hnodup hi, realignMapping_mem fns j hnodup hj]
    have hs := List.sorted_insertionSort (· ≤ ·) (fns.map Footnote.citation)
    have hiff := sorted_indexOf_lt_iff _ hs hnd (hperm.mem_iff.mpr hi) (hperm.mem_iff.mpr hj)
    omega
  · show scanRefs (pyNormalize (subRefs (realignMapping fns) t)) = _
    rw [hnorm]
    exact scanRefs_subRefs (realignMapping fns) t.length t le_rfl

/-- Witness for C1 at a concrete Paragraph: text `a[3] b[5]` with
footnotes `(3, x)`, `(5, y)` realigns to ordinals `1`, `2`. -/
theorem c1_witness :
    ∃ q : Paragraph,
      with_footnotes_realigned ⟨tl "a[3] b[5]", [], [], [⟨3, tl "x"⟩, ⟨5, tl "y"⟩]⟩
        = Except.ok q
      ∧ q.footnotes = ([⟨3, tl "x"⟩, ⟨5, tl "y"⟩] : List Footnote).map
          (fun f => (⟨realignMapping [⟨3, tl "x"⟩, ⟨5, tl "y"⟩] f.citation, f.content⟩ : Footnote))
      ∧ (q.footnotes.map Footnote.citation).Perm
          (List.range' 1 ([⟨3, tl "x"⟩, ⟨5, tl "y"⟩] : List Footnote).length)
      ∧ (∀ i ∈ ([⟨3, tl "x"⟩, ⟨5, tl "y"⟩] : List Footnote).map Footnote.citation,
          ∀ j ∈ ([⟨3, tl "x"⟩, ⟨5, tl "y"⟩] : List Footnote).map Footnote.citation,
          (i < j ↔ realignMapping [⟨3, tl "x"⟩, ⟨5, tl "y"⟩] i
            < realignMapping [⟨3, tl "x"⟩, ⟨5, tl "y"⟩] j))
      ∧ scanRefs q.text
          = (scanRefs (tl "a[3] b[5]")).map (realignMapping [⟨3, tl "x"⟩, ⟨5, tl "y"⟩]) :=
  c1_realign_amended (tl "a[3] b[5]") [] [] [⟨3, tl "x"⟩, ⟨5, tl "y"⟩]
    (by decide) (by decide) (by decide) (by decide) (by decide)

/-- `any` over a mapped list tests the composed predicate. -/
theorem anyMapGen {α β : Type} (f : α → β) (p : β → Bool) :
    ∀ l : List α, (l.map f).any p = l.any (fun x => p (f x)) := by
  intro l
  induction l with
  | nil => rfl
  | cons a rest ih => simp [List.any_cons, ih]

/-- Filtering a disjunction of predicates that never hold together is a
permutation of the two filters concatenated. -/
theorem filter_or_exclusive {α : Type} (a b : α → Bool) :
    ∀ l : List α, (∀ x ∈ l, ¬(a x = true ∧ b x = true)) →
    (l.filter (fun x => a x || b x)).Perm (l.filter a ++ l.filter b) := by
  intro l
  induction l with
  | nil => intro _; exact List.Perm.refl []
  | cons x rest ih =>
    intro h
    have hrest := fun y hy => h y (List.mem_cons_of_mem x hy)
    by_cases ha : a x = true
    · have hb : b x = false := by
        rcases hbx : b x with _ | _
        · rfl
        · exact absurd ⟨ha, hbx⟩ (h x (List.mem_cons_self x rest))
      simp only [List.filter_cons, ha, hb, Bool.true_or, if_true, List.cons_append]
      exact (ih hrest).cons x
    · have ha' : a x = false := Bool.eq_false_iff.mpr ha
      by_cases hb : b x = true
      · simp only [List.filter_cons, ha', hb, Bool.false_or, if_true, Bool.false_eq_true,
          if_false]
        exact ((ih hrest).cons x).trans List.perm_middle.symm
      · have hb' : b x = false := Bool.eq_false_iff.mpr hb
        simp only [List.filter_cons, ha', hb', Bool.or_self, Bool.false_eq_true, if_false]
        exact ih hrest

/-- Concatenating filters by pairwise-exclusive predicates is a permutation
of the single filter by their disjunction. -/
theorem join_filters_exclusive {α : Type} (l : List α) :
    ∀ ps : List (α → Bool),
    List.Pairwise (fun p q => ∀ x ∈ l, ¬(p x = true ∧ q x = true)) ps →
    ((ps.map (fun p => l.filter p)).flatten).Perm
      (l.filter (fun x => ps.any (fun p => p x))) := by
  intro ps
  induction ps with
  | nil =>
    intro _
    simp
  | cons p ps' ih =>
    intro hp
    rw [List.map_cons, List.flatten_cons]
    have hpair := List.pairwise_cons.mp hp
    have hexcl : ∀ x ∈ l, ¬(p x = true ∧ (ps'.any (fun q => q x)) = true) := by
      rintro x hx ⟨h1, h2⟩
      rcases List.any_eq_true.mp h2 with ⟨q, hq, hqx⟩
      exact hpair.1 q hq x hx ⟨h1, hqx⟩
    have hsplit := filter_or_exclusive p (fun x => ps'.any (fun q => q x)) l hexcl
    have hcongr : l.filter (fun x => (p :: ps').any (fun q => q x))
        = l.filter (fun x => p x || ps'.any (fun q => q x)) := by
      apply List.filter_congr
      intro x _
      rw [List.any_cons]
    rw [hcongr]
    exact (((ih hpair.2).append_left (l.filter p)).trans hsplit.symm)

/-- Folding a separator into the head of the part list. -/
theorem joinSep_cons_cons (d acc part : Text) (rest : List Text) :
    joinSep d (acc :: part :: rest) = joinSep d ((acc ++ d ++ part) :: rest) := by
  match rest with
  | [] => rfl
  | z :: rest' => simp [joinSep, List.append_assoc]

/-- An ordinal referenced in one of two reference-exclusive parts does not
survive the filter keyed to the other part. -/
theorem citation_not_in_exclusive_filter (fns : List Footnote)
    (hnodup : (fns.map Footnote.citation).Nodup) (a b : Text)
    (hexcl : ∀ f ∈ fns, ¬((scanRefs a).contains f.citation = true
      ∧ (scanRefs b).contains f.citation = true))
    (f : Footnote) (hf : f ∈ fns) (hb : (scanRefs b).contains f.citation = true) :
    f.citation ∉ (fns.filter (fun g => (scanRefs a).contains g.citation)).map
      Footnote.citation := by
  intro hmem
  rcases List.mem_map.mp hmem with ⟨g, hg, hgc⟩
  obtain ⟨hg_mem, hg_scan⟩ := List.mem_filter.mp hg
  have hgf : g = f := List.inj_on_of_nodup_map hnodup hg_mem hf hgc
  rw [hgf] at hg_scan
  exact hexcl f hf ⟨hg_scan, hb⟩

/-- The merge fold over split parts, when parts are reference-exclusive,
normalization-stable and free of scanner triggers: the texts concatenate
with the separator and the per-part footnote filters concatenate. -/
theorem foldMerge_no_collision (d : Text) (fns : List Footnote)
    (hnodup : (fns.map Footnote.citation).Nodup)
    (hcar_d : '^' ∉ d) (hpar_d : '(' ∉ d) :
    ∀ partsRest : List Text, ∀ accText : Text, ∀ accFns : List Footnote,
    ('^' ∉ accText) → ('(' ∉ accText) →
    (∀ part ∈ partsRest, '^' ∉ part ∧ '(' ∉ part) →
    (∀ k, k < partsRest.length →
      pyNormalize (joinSep d (accText :: partsRest.take (k + 1)))
        = joinSep d (accText :: partsRest.take (k + 1))) →
    (∀ part ∈ partsRest, ∀ f ∈ fns, (scanRefs part).contains f.citation = true →
      f.citation ∉ accFns.map Footnote.citation) →
    List.Pairwise (fun p q => ∀ f ∈ fns,
      ¬((scanRefs p).contains f.citation = true ∧ (scanRefs q).contains f.citation = true))
      partsRest →
    List.foldlM (fun acc q => merge_with acc q d)
        (⟨accText, [], [], accFns⟩ : Paragraph)
        (partsRest.map (fun part =>
          (⟨part, [], [],
            fns.filter (fun g => (scanRefs part).contains g.citation)⟩ : Paragraph)))
      = Except.ok ⟨joinSep d (accText :: partsRest), [], [],
          accFns ++ (partsRest.map
            (fun part => fns.filter (fun g => (scanRefs part).contains g.citation))).flatten⟩ := by
  intro partsRest
  induction partsRest with
  | nil =>
    intro accText accFns _ _ _ _ _ _
    simp only [List.map_nil, List.foldlM_nil, List.flatten_nil, List.append_nil]
    rfl
  | cons part rest ih =>
    intro accText accFns hc1 hc2 hsafe hnorm hdisj hpair
    have hps := hsafe part (List.mem_cons_self part rest)
    have h1' : '^' ∉ accText ++ d ++ part := by
      intro hm
      rcases List.mem_append.mp hm with hm1 | hm2
      · rcases List.mem_append.mp hm1 with hm3 | hm4
        · exact hc1 hm3
        · exact hcar_d hm4
      · exact hps.1 hm2
    have h2' : '(' ∉ accText ++ d ++ part := by
      intro hm
      rcases List.mem_append.mp hm with hm1 | hm2
      · rcases List.mem_append.mp hm1 with hm3 | hm4
        · exact hc2 hm3
        · exact hpar_d hm4
      · exact hps.2 hm2
    have hnocol : ∀ f ∈ fns.filter (fun g => (scanRefs part).contains g.citation),
        accFns.any (fun g => g.citation == f.citation) = false := by
      intro f hf
      obtain ⟨hfm, hfs⟩ := List.mem_filter.mp hf
      have hno := hdisj part (List.mem_cons_self part rest) f hfm hfs
      apply Bool.eq_false_iff.mpr
      intro hany
      rcases List.any_eq_true.mp hany with ⟨g, hg, hgf⟩
      exact hno (List.mem_map.mpr ⟨g, hg, eq_of_beq hgf⟩)
    have hmerge := merge_with_no_collision ⟨accText, [], [], accFns⟩
        ⟨part, [], [], fns.filter (fun g => (scanRefs part).contains g.citation)⟩ d hnocol
    have hnew := Paragraph.new_safe (accText ++ d ++ part)
        (accFns ++ fns.filter (fun g => (scanRefs part).contains g.citation)) h1' h2'
    have hn0 : pyNormalize (accText ++ d ++ part) = accText ++ d ++ part :=
      hnorm 0 (by simp)
    rw [List.map_cons]
    rw [List.foldlM_cons]
    simp only [hmerge, hnew, hn0, bind, Except.bind]
    rw [joinSep_cons_cons d accText part rest]
    have hfl : accFns ++ ((part :: rest).map
          (fun p2 => fns.filter (fun g => (scanRefs p2).contains g.citation))).flatten
        = (accFns ++ fns.filter (fun g => (scanRefs part).contains g.citation))
          ++ ((rest.map
            (fun p2 => fns.filter (fun g => (scanRefs p2).contains g.citation))).flatten) := by
      rw [List.map_cons, List.flatten_cons, List.append_assoc]
    rw [hfl]
    have hnorm' : ∀ k, k < rest.length →
        pyNormalize (joinSep d ((accText ++ d ++ part) :: rest.take (k + 1)))
          = joinSep d ((accText ++ d ++ part) :: rest.take (k + 1)) := by
      intro k hk
      have h := hnorm (k + 1) (by simp only [List.length_cons]; omega)
      rw [List.take_succ_cons, joinSep_cons_cons d accText part (rest.take (k + 1))] at h
      exact h
    have hdisj' : ∀ part' ∈ rest, ∀ f ∈ fns,
        (scanRefs part').contains f.citation = true →
        f.citation ∉ (accFns ++ fns.filter
          (fun g => (scanRefs part).contains g.citation)).map Footnote.citation := by
      intro part' hp' f hf hc
      rw [List.map_append]
      intro hmem
      rcases List.mem_append.mp hmem with hmem1 | hmem2
      · exact hdisj part' (List.mem_cons_of_mem part hp') f hf hc hmem1
      · exact citation_not_in_exclusive_filter fns hnodup part part'
          ((List.pairwise_cons.mp hpair).1 part' hp') f hf hc hmem2
    exact ih (accText ++ d ++ part)
      (accFns ++ fns.filter (fun g => (scanRefs part).contains g.citation))
      h1' h2' (fun p2 hp2 => hsafe p2 (List.mem_cons_of_mem part hp2))
      hnorm' hdisj' (List.pairwise_cons.mp hpair).2

/-- **C2 (counterexample).**  A Paragraph whose two parts reference the
same footnote ordinal: splitting duplicates the footnote into both parts,
and re-merging renumbers the second copy (ordinal collision), so the
rejoined text differs from the original and the surviving footnotes are
not the referenced footnotes of the original. -/
theorem c2_counterexample :
    split_paragraphs ⟨tl "a[1]\n\nb[1]", [], [], [⟨1, tl "x"⟩]⟩ (tl "\n\n")
      = Except.ok [⟨tl "a[1]", [], [], [⟨1, tl "x"⟩]⟩, ⟨tl "b[1]", [], [], [⟨1, tl "x"⟩]⟩]
    ∧ foldMerge (tl "\n\n")
        [⟨tl "a[1]", [], [], [⟨1, tl "x"⟩]⟩, ⟨tl "b[1]", [], [], [⟨1, tl "x"⟩]⟩]
      = Except.ok ⟨tl "a[1]\n\nb[2]", [], [], [⟨1, tl "x"⟩, ⟨2, tl "x"⟩]⟩
    ∧ tl "a[1]\n\nb[2]" ≠ tl "a[1]\n\nb[1]"
    ∧ ([⟨1, tl "x"⟩, ⟨2, tl "x"⟩] : List Footnote) ≠ [⟨1, tl "x"⟩]
    ∧ ¬(([⟨1, tl "x"⟩, ⟨2, tl "x"⟩] : List Footnote).Perm
        (([⟨1, tl "x"⟩] : List Footnote).filter
          (fun f => (scanRefs (tl "a[1]\n\nb[1]")).contains f.citation))) := by
  refine ⟨rfl, rfl, by decide, by decide, by decide⟩

/-- **C2 (amended).**  The split/merge round trip holds when the parts are
normalization-stable, free of the crashing scanner triggers, and no
footnote ordinal is referenced in two different parts: splitting and
left-folding `merge_with` with the same separator reconstructs the original
text exactly, and the surviving footnotes are, up to order, exactly the
footnotes whose ordinals are bracket-referenced somewhere in the original
text; unreferenced footnotes are dropped. -/
theorem c2_split_merge_amended (t : Text) (fc an : List Citation) (fns : List Footnote)
    (d : Text) (hd : d ≠ [])
    (hnodup : (fns.map Footnote.citation).Nodup)
    (hct : '^' ∉ t) (hpt : '(' ∉ t) (hcd : '^' ∉ d) (hpd : '(' ∉ d)
    (hparts : ∀ part ∈ splitSep d t, pyStrip part = part ∧ pyNormalize part = part ∧ part ≠ [])
    (hnorm : ∀ k, k < (splitSep d t).length - 1 →
      pyNormalize (joinSep d ((splitSep d t).take (k + 2)))
        = joinSep d ((splitSep d t).take (k + 2)))
    (hpair : List.Pairwise (fun p q => ∀ f ∈ fns,
      ¬((scanRefs p).contains f.citation = true ∧ (scanRefs q).contains f.citation = true))
      (splitSep d t))
    (hscan : scanRefs t = ((splitSep d t).map scanRefs).flatten) :
    ∃ ps : List Paragraph, ∃ q : Paragraph,
      split_paragraphs ⟨t, fc, an, fns⟩ d = Except.ok ps
      ∧ foldMerge d ps = Except.ok q
      ∧ q.text = t
      ∧ q.footnotes.Perm
          (fns.filter (fun f => (scanRefs t).contains f.citation))
      ∧ (q.footnotes.map Footnote.citation).Nodup
      ∧ (∀ f ∈ fns, (scanRefs t).contains f.citation = false → f ∉ q.footnotes) := by
  obtain ⟨p0, rest, hml⟩ : ∃ p0 rest, splitSep d t = p0 :: rest := by
    rcases hp : splitSep d t with _ | ⟨p0, rest⟩
    · exact absurd hp (splitSepGo_ne_nil d t.length t)
    · exact ⟨p0, rest, rfl⟩
  have hmemt : ∀ part ∈ splitSep d t, '^' ∉ part ∧ '(' ∉ part := by
    intro part hp
    constructor
    · intro hm
      exact hct (mem_of_mem_splitSep d t.length t part hp '^' hm)
    · intro hm
      exact hpt (mem_of_mem_splitSep d t.length t part hp '(' hm)
  have hfilter : (splitSep d t).filter (fun part => !(pyStrip part).isEmpty)
      = splitSep d t := by
    rw [List.filter_eq_self]
    intro part hp
    obtain ⟨h1, _, h3⟩ := hparts part hp
    rw [h1]
    cases part
    · exact absurd rfl h3
    · rfl
  have hmapM : (splitSep d t).mapM (fun part => Paragraph.new (pyStrip part) [] []
        (fns.filter (fun f => (scanRefs part).contains f.citation)))
      = Except.ok ((splitSep d t).map (fun part => (⟨part, [], [],
          fns.filter (fun f => (scanRefs part).contains f.citation)⟩ : Paragraph))) := by
    apply exceptMapM_ok
    intro part hp
    obtain ⟨h1, h2, _⟩ := hparts part hp
    have hsafe := hmemt part hp
    have hcc1 : '^' ∉ pyStrip part := by rw [h1]; exact hsafe.1
    have hcc2 : '(' ∉ pyStrip part := by rw [h1]; exact hsafe.2
    rw [Paragraph.new_safe (pyStrip part) _ hcc1 hcc2, h1, h2]
  have hsplit : split_paragraphs ⟨t, fc, an, fns⟩ d
      = Except.ok ((splitSep d t).map (fun part => (⟨part, [], [],
          fns.filter (fun f => (scanRefs part).contains f.citation)⟩ : Paragraph))) := by
    show ((splitSep d t).filter (fun part => !(pyStrip part).isEmpty)).mapM
        (fun part => Paragraph.new (pyStrip part) [] []
          (fns.filter (fun f => (scanRefs part).contains f.citation))) = _
    rw [hfilter]
    exact hmapM
  have hp0mem : p0 ∈ splitSep d t := by
    rw [hml]
    exact List.mem_cons_self p0 rest
  have hp0safe := hmemt p0 hp0mem
  have hpair' : List.Pairwise (fun p q => ∀ f ∈ fns,
      ¬((scanRefs p).contains f.citation = true ∧ (scanRefs q).contains f.citation = true))
      (p0 :: rest) := hml ▸ hpair
  have hfold := foldMerge_no_collision d fns hnodup hcd hpd rest p0
    (fns.filter (fun g => (scanRefs p0).contains g.citation))
    hp0safe.1 hp0safe.2
    (fun part hp => hmemt part (by rw [hml]; exact List.mem_cons_of_mem p0 hp))
    (by
      intro k hk
      have h := hnorm k (by rw [hml]; simp only [List.length_cons]; omega)
      rw [hml, show k + 2 = k + 1 + 1 from rfl, List.take_succ_cons] at h
      exact h)
    (by
      intro part hp f hf hc
      exact citation_not_in_exclusive_filter fns hnodup p0 part
        ((List.pairwise_cons.mp hpair').1 part hp) f hf hc)
    (List.pairwise_cons.mp hpair').2
  have hpermq : (fns.filter (fun g => (scanRefs p0).contains g.citation)
      ++ (rest.map
        (fun part => fns.filter (fun g => (scanRefs part).contains g.citation))).flatten).Perm
      (fns.filter (fun f => (scanRefs t).contains f.citation)) := by
    have heq : fns.filter (fun g => (scanRefs p0).contains g.citation)
        ++ (rest.map
          (fun part => fns.filter (fun g => (scanRefs part).contains g.citation))).flatten
        = ((splitSep d t).map
          (fun part => fns.filter (fun g => (scanRefs part).contains g.citation))).flatten := by
      rw [hml, List.map_cons, List.flatten_cons]
    rw [heq]
    have hmapmap : ((splitSep d t).map
          (fun part => fns.filter (fun g => (scanRefs part).contains g.citation)))
        = (((splitSep d t).map
            (fun part => (fun g : Footnote => (scanRefs part).contains g.citation))).map
          (fun p => fns.filter p)) := by
      rw [List.map_map]
      rfl
    rw [hmapmap]
    have hpairp : List.Pairwise (fun p q => ∀ x ∈ fns, ¬(p x = true ∧ q x = true))
        ((splitSep d t).map
          (fun part => (fun g : Footnote => (scanRefs part).contains g.citation))) :=
      List.pairwise_map.mpr hpair
    refine (join_filters_exclusive fns _ hpairp).trans ?_
    have hcongr2 : fns.filter (fun x => ((splitSep d t).map
          (fun part => (fun g : Footnote => (scanRefs part).contains g.citation))).any
            (fun p => p x))
        = fns.filter (fun f => (scanRefs t).contains f.citation) := by
      apply List.filter_congr
      intro f _
      rw [anyMapGen]
      have hiff : ((splitSep d t).any
            (fun part => (scanRefs part).contains f.citation)) = true
          ↔ ((scanRefs t).contains f.citation) = true := by
        rw [List.any_eq_true]
        constructor
        · rintro ⟨part, hp, hcp⟩
          have hcmem : f.citation ∈ scanRefs part := List.elem_iff.mp hcp
          have hmemt2 : f.citation ∈ scanRefs t := by
            rw [hscan]
            exact List.mem_flatten.mpr ⟨scanRefs part, List.mem_map_of_mem _ hp, hcmem⟩
          exact List.elem_iff.mpr hmemt2
        · intro hct2
          have hm := List.elem_iff.mp hct2
          rw [hscan] at hm
          rcases List.mem_flatten.mp hm with ⟨s, hs, hmem⟩
          rcases List.mem_map.mp hs with ⟨part, hp, hps⟩
          exact ⟨part, hp, List.elem_iff.mpr (hps ▸ hmem)⟩
      exact Bool.eq_iff_iff.mpr hiff
    rw [hcongr2]
  refine ⟨(splitSep d t).map (fun part => (⟨part, [], [],
      fns.filter (fun f => (scanRefs part).contains f.citation)⟩ : Paragraph)),
    ⟨joinSep d (p0 :: rest), [], [],
      fns.filter (fun g => (scanRefs p0).contains g.citation)
        ++ (rest.map
          (fun part => fns.filter (fun g => (scanRefs part).contains g.citation))).flatten⟩,
    hsplit, ?_, ?_, hpermq, ?_, ?_⟩
  · rw [hml, List.map_cons]
    exact hfold
  · show joinSep d (p0 :: rest) = t
    rw [← hml]
    exact joinSep_splitSep d hd t
  · show ((fns.filter (fun g => (scanRefs p0).contains g.citation)
        ++ (rest.map
          (fun part => fns.filter (fun g => (scanRefs part).contains g.citation))).flatten).map
        Footnote.citation).Nodup
    have hsub : ((fns.filter (fun f => (scanRefs t).contains f.citation)).map
        Footnote.citation).Nodup :=
      hnodup.sublist (List.Sublist.map Footnote.citation (List.filter_sublist fns))
    exact (hpermq.map Footnote.citation).symm.nodup hsub
  · intro f _ hcf hmem
    have hmem2 := hpermq.mem_iff.mp hmem
    obtain ⟨-, hpred⟩ := List.mem_filter.mp hmem2
    rw [hcf] at hpred
    exact absurd hpred (by simp)

/-- Witness for C2 at a concrete Paragraph: `a[1]\n\nb[2]` with footnotes
`(1, x)`, `(2, y)` and the unreferenced `(7, z)`, split and re-merged on
`\n\n`. -/
theorem c2_witness :
    ∃ ps : List Paragraph, ∃ q : Paragraph,
      split_paragraphs ⟨tl "a[1]\n\nb[2]", [], [],
          [⟨1, tl "x"⟩, ⟨2, tl "y"⟩, ⟨7, tl "z"⟩]⟩ (tl "\n\n") = Except.ok ps
      ∧ foldMerge (tl "\n\n") ps = Except.ok q
      ∧ q.text = tl "a[1]\n\nb[2]"
      ∧ q.footnotes.Perm
          (([⟨1, tl "x"⟩, ⟨2, tl "y"⟩, ⟨7, tl "z"⟩] : List Footnote).filter
            (fun f => (scanRefs (tl "a[1]\n\nb[2]")).contains f.citation))
      ∧ (q.footnotes.map Footnote.citation).Nodup
      ∧ (∀ f ∈ ([⟨1, tl "x"⟩, ⟨2, tl "y"⟩, ⟨7, tl "z"⟩] : List Footnote),
          (scanRefs (tl "a[1]\n\nb[2]")).contains f.citation = false →
          f ∉ q.footnotes) :=
  c2_split_merge_amended (tl "a[1]\n\nb[2]") [] [] [⟨1, tl "x"⟩, ⟨2, tl "y"⟩, ⟨7, tl "z"⟩]
    (tl "\n\n") (by decide) (by decide) (by decide) (by decide) (by decide) (by decide)
    (by decide) (by decide) (by decide) (by decide)
